import Mathlib

/-!
Verification of the SQLite event-storage backend (`src/database/sqlite/mod.rs`).

The development shallowly embeds the schema compiler (`event_to_tables`,
`has_nested_dynamic_arrays`, `map_value`), the name sanitizer
(`sanitize_name`), the value encoder inside `store_event`, and the
cursor/uncle operations (`set_event_blocks`, `event_block`, `remove`,
`prepare_event`).

The repository modules `crate::database::event_visitor` (the depth-first
tree-traversal primitive over kinds and values) and
`crate::database::sqlite::keywords` (the SQLite keyword list), as well as the
`database` interface types (`Log`, `Block`, `EventBlock`, `Uncle`) are not
among the provided sources; they are modelled from the spec and marked as
such in their doc comments.  The SQLite engine itself is external by the
spec; statement execution is modelled by its documented effect on an explicit
database state.
-/

/-- SQLite physical value type (`rusqlite::types::Type`). -/
inductive SqlType where
  | null
  | integer
  | real
  | text
  | blob
deriving DecidableEq, Repr

/-- `struct Column(SqlType)` from the source; the newtype is kept as a plain
synonym for its payload. -/
abbrev Column := SqlType

/-- `struct Table(Vec<Column>)` from the source. -/
structure Table where
  columns : List Column
deriving DecidableEq, Repr

/-- The ABI type grammar (`solabi::value::ValueKind`), as described by the
spec data model: scalar kinds plus `Tuple`, `FixedArray`, and dynamic
`Array`. -/
inductive AbiKind where
  | int (bits : Nat)
  | uint (bits : Nat)
  | address
  | bool
  | fixedBytes (len : Nat)
  | function
  | bytes
  | string
  | tuple (components : List AbiKind)
  | fixedArray (size : Nat) (elem : AbiKind)
  | array (elem : AbiKind)

mutual

/-- Boolean equality on `AbiKind` (structural, like Rust `PartialEq`). -/
def AbiKind.beq : AbiKind → AbiKind → Bool
  | .int a, .int b => a == b
  | .uint a, .uint b => a == b
  | .address, .address => true
  | .bool, .bool => true
  | .fixedBytes a, .fixedBytes b => a == b
  | .function, .function => true
  | .bytes, .bytes => true
  | .string, .string => true
  | .tuple ks, .tuple ls => AbiKind.beqList ks ls
  | .fixedArray n k, .fixedArray m l => n == m && AbiKind.beq k l
  | .array k, .array l => AbiKind.beq k l
  | _, _ => false

/-- Boolean equality on lists of `AbiKind`. -/
def AbiKind.beqList : List AbiKind → List AbiKind → Bool
  | [], [] => true
  | a :: as, b :: bs => AbiKind.beq a b && AbiKind.beqList as bs
  | _, _ => false

end

mutual

theorem AbiKind.beq_iff : ∀ (a b : AbiKind), (AbiKind.beq a b = true) ↔ a = b
  | .int x, b => by cases b <;> simp [AbiKind.beq]
  | .uint x, b => by cases b <;> simp [AbiKind.beq]
  | .address, b => by cases b <;> simp [AbiKind.beq]
  | .bool, b => by cases b <;> simp [AbiKind.beq]
  | .fixedBytes x, b => by cases b <;> simp [AbiKind.beq]
  | .function, b => by cases b <;> simp [AbiKind.beq]
  | .bytes, b => by cases b <;> simp [AbiKind.beq]
  | .string, b => by cases b <;> simp [AbiKind.beq]
  | .tuple ks, b => by
      have hrec := fun ls => AbiKind.beqList_iff ks ls
      cases b <;> simp [AbiKind.beq, hrec]
  | .fixedArray n k, b => by
      have hrec := fun l => AbiKind.beq_iff k l
      cases b <;> simp [AbiKind.beq, hrec]
  | .array k, b => by
      have hrec := fun l => AbiKind.beq_iff k l
      cases b <;> simp [AbiKind.beq, hrec]
termination_by a _ => sizeOf a

theorem AbiKind.beqList_iff : ∀ (as bs : List AbiKind),
    (AbiKind.beqList as bs = true) ↔ as = bs
  | [], bs => by cases bs <;> simp [AbiKind.beqList]
  | a :: as, bs => by
      have h1 := fun b => AbiKind.beq_iff a b
      have h2 := fun bs2 => AbiKind.beqList_iff as bs2
      cases bs <;> simp [AbiKind.beqList, h1, h2]
termination_by as _ => sizeOf as

end

instance : DecidableEq AbiKind := fun a b =>
  decidable_of_iff (AbiKind.beq a b = true) (AbiKind.beq_iff a b)

/-- ABI runtime values (`solabi::value::Value`).  Machine bytes are lists of
`Nat` (each `< 256` in well-formed values); 256-bit integers are unbounded
`Int`/`Nat` with explicit reductions where overflow matters.  `fixedArray`
and `array` carry their element kind, as solabi arrays do (needed for the
kind of empty arrays). -/
inductive AbiValue where
  | int (bits : Nat) (v : Int)
  | uint (bits : Nat) (v : Nat)
  | address (bytes : List Nat)
  | bool (b : Bool)
  | fixedBytes (bytes : List Nat)
  | function (addr : List Nat) (selector : List Nat)
  | bytes (bs : List Nat)
  | string (s : String)
  | tuple (vs : List AbiValue)
  | fixedArray (elemKind : AbiKind) (vs : List AbiValue)
  | array (elemKind : AbiKind) (vs : List AbiValue)

mutual

/-- Boolean equality on `AbiValue` (structural, like Rust `PartialEq`). -/
def AbiValue.beq : AbiValue → AbiValue → Bool
  | .int xb xv, .int yb yv => xb == yb && xv == yv
  | .uint xb xv, .uint yb yv => xb == yb && xv == yv
  | .address x, .address y => x == y
  | .bool x, .bool y => x == y
  | .fixedBytes x, .fixedBytes y => x == y
  | .function xa xs, .function ya ys => xa == ya && xs == ys
  | .bytes x, .bytes y => x == y
  | .string x, .string y => x == y
  | .tuple vs, .tuple ws => AbiValue.beqList vs ws
  | .fixedArray xk vs, .fixedArray yk ws => xk = yk && AbiValue.beqList vs ws
  | .array xk vs, .array yk ws => xk = yk && AbiValue.beqList vs ws
  | _, _ => false

/-- Boolean equality on lists of `AbiValue`. -/
def AbiValue.beqList : List AbiValue → List AbiValue → Bool
  | [], [] => true
  | a :: as, b :: bs => AbiValue.beq a b && AbiValue.beqList as bs
  | _, _ => false

end

mutual

theorem AbiValue.beqV_iff : ∀ (a b : AbiValue), (AbiValue.beq a b = true) ↔ a = b
  | .int xb xv, b => by cases b <;> simp [AbiValue.beq]
  | .uint xb xv, b => by cases b <;> simp [AbiValue.beq]
  | .address x, b => by cases b <;> simp [AbiValue.beq]
  | .bool x, b => by cases b <;> simp [AbiValue.beq]
  | .fixedBytes x, b => by cases b <;> simp [AbiValue.beq]
  | .function xa xs, b => by cases b <;> simp [AbiValue.beq]
  | .bytes x, b => by cases b <;> simp [AbiValue.beq]
  | .string x, b => by cases b <;> simp [AbiValue.beq]
  | .tuple vs, b => by
      have hrec := fun ws => AbiValue.beqListV_iff vs ws
      cases b <;> simp [AbiValue.beq, hrec]
  | .fixedArray xk vs, b => by
      have hrec := fun ws => AbiValue.beqListV_iff vs ws
      cases b <;> simp [AbiValue.beq, hrec]
  | .array xk vs, b => by
      have hrec := fun ws => AbiValue.beqListV_iff vs ws
      cases b <;> simp [AbiValue.beq, hrec]
termination_by a _ => sizeOf a

theorem AbiValue.beqListV_iff : ∀ (as bs : List AbiValue),
    (AbiValue.beqList as bs = true) ↔ as = bs
  | [], bs => by cases bs <;> simp [AbiValue.beqList]
  | a :: as, bs => by
      have h1 := fun b => AbiValue.beqV_iff a b
      have h2 := fun bs2 => AbiValue.beqListV_iff as bs2
      cases bs <;> simp [AbiValue.beqList, h1, h2]
termination_by as _ => sizeOf as

end

instance : DecidableEq AbiValue := fun a b =>
  decidable_of_iff (AbiValue.beq a b = true) (AbiValue.beqV_iff a b)

/-- Structural events of the type traversal (`event_visitor::VisitKind`).
Modelled from the spec: the visitor yields a depth-first sequence of
array-open / array-close / scalar-leaf events for a type. -/
inductive VisitKind where
  | arrayStart
  | arrayEnd
  | value (k : AbiKind)
deriving DecidableEq

/-- Structural events of the value traversal (`event_visitor::VisitValue`).
Modelled from the spec: identical in shape to the type traversal; the
array-open event carries the dynamic array's element count. -/
inductive VisitValue where
  | arrayStart (len : Nat)
  | arrayEnd
  | value (v : AbiValue)
deriving DecidableEq

/-- `n`-fold repetition of an event sequence: a fixed array of size `n`
visits its element type once per element. -/
def eventsRep {α : Type} : Nat → List α → List α
  | 0, _ => []
  | n + 1, evs => evs ++ eventsRep n evs

mutual

/-- Modelled from the spec: `event_visitor::visit_kind`.  Depth-first
traversal of a `Kind` tree.  Tuples and fixed arrays are transparent (a
fixed array visits its element type once per element, multiplying leaf
counts by its size); dynamic arrays emit `arrayStart`/`arrayEnd` around
their element type. -/
def visitKind : AbiKind → List VisitKind
  | .tuple ks => visitKindList ks
  | .fixedArray n k => eventsRep n (visitKind k)
  | .array k => VisitKind.arrayStart :: (visitKind k ++ [VisitKind.arrayEnd])
  | k => [VisitKind.value k]

/-- Traversal of a list of kinds in declaration order. -/
def visitKindList : List AbiKind → List VisitKind
  | [] => []
  | k :: ks => visitKind k ++ visitKindList ks

end

mutual

/-- Modelled from the spec: `event_visitor::visit_value`.  Depth-first
traversal of a value tree, identical in shape to `visitKind` on the value's
kind. -/
def visitValue : AbiValue → List VisitValue
  | .tuple vs => visitValueList vs
  | .fixedArray _ vs => visitValueList vs
  | .array _ vs =>
      VisitValue.arrayStart vs.length :: (visitValueList vs ++ [VisitValue.arrayEnd])
  | v => [VisitValue.value v]

/-- Traversal of a list of values in order. -/
def visitValueList : List AbiValue → List VisitValue
  | [] => []
  | v :: vs => visitValue v ++ visitValueList vs

end

mutual

/-- Maximum dynamic-array nesting depth encountered by the traversal of a
kind:  the value `max_level` reached by `has_nested_dynamic_arrays`'s
counter.  A fixed array of size `0` visits nothing, hence contributes
depth `0`. -/
def kindDepth : AbiKind → Nat
  | .tuple ks => kindDepthList ks
  | .fixedArray n k => if n = 0 then 0 else kindDepth k
  | .array k => kindDepth k + 1
  | _ => 0

/-- Maximum traversal depth over a list of kinds. -/
def kindDepthList : List AbiKind → Nat
  | [] => 0
  | k :: ks => max (kindDepth k) (kindDepthList ks)

end

mutual

/-- Closed-form schema contribution of one kind: the pair of
(columns appended to the current root table, array tables opened in
traversal order).  For kinds of traversal depth at most 1 this is what
`map_value` appends to the table list. -/
def kindSchema : AbiKind → List Column × List (List Column)
  | .int _ => ([SqlType.blob], [])
  | .uint _ => ([SqlType.blob], [])
  | .address => ([SqlType.blob], [])
  | .bool => ([SqlType.integer], [])
  | .fixedBytes _ => ([SqlType.blob], [])
  | .function => ([SqlType.blob], [])
  | .bytes => ([SqlType.blob], [])
  | .string => ([SqlType.blob], [])
  | .tuple ks => kindSchemaList ks
  | .fixedArray n k => (eventsRep n (kindSchema k).1, eventsRep n (kindSchema k).2)
  | .array k => ([], [(kindSchema k).1])

/-- Concatenated schema contributions of a list of kinds. -/
def kindSchemaList : List AbiKind → List Column × List (List Column)
  | [] => ([], [])
  | k :: ks =>
      ((kindSchema k).1 ++ (kindSchemaList ks).1,
        (kindSchema k).2 ++ (kindSchemaList ks).2)

end

mutual

/-- `Value::kind()` of solabi, modelled from the spec: the declared kind of
a runtime value.  Array values carry their element kind so that empty
arrays have a kind. -/
def AbiValue.kind : AbiValue → AbiKind
  | .int bits _ => .int bits
  | .uint bits _ => .uint bits
  | .address _ => .address
  | .bool _ => .bool
  | .fixedBytes bs => .fixedBytes bs.length
  | .function _ _ => .function
  | .bytes _ => .bytes
  | .string _ => .string
  | .tuple vs => .tuple (AbiValue.kindList vs)
  | .fixedArray ek vs => .fixedArray vs.length ek
  | .array ek _ => .array ek

/-- Kinds of a list of values. -/
def AbiValue.kindList : List AbiValue → List AbiKind
  | [] => []
  | v :: vs => AbiValue.kind v :: AbiValue.kindList vs

end

mutual

/-- Full conformance of a value to a kind: the value is a well-formed
inhabitant of the kind (solabi values are such by construction).  Stronger
than `AbiValue.kind v = k` in that array and fixed-array elements are
required to conform to the element kind. -/
def matchesKind : AbiValue → AbiKind → Bool
  | .int b _, .int b2 => b == b2
  | .uint b _, .uint b2 => b == b2
  | .address bs, .address => bs.length == 20
  | .bool _, .bool => true
  | .fixedBytes bs, .fixedBytes n => bs.length == n
  | .function a s, .function => a.length == 20 && s.length == 4
  | .bytes _, .bytes => true
  | .string _, .string => true
  | .tuple vs, .tuple ks => matchesKindList vs ks
  | .fixedArray ek vs, .fixedArray n k => ek = k && vs.length == n && matchesKindAll vs k
  | .array ek vs, .array k => ek = k && matchesKindAll vs k
  | _, _ => false

/-- Pairwise conformance of a list of values to a list of kinds. -/
def matchesKindList : List AbiValue → List AbiKind → Bool
  | [], [] => true
  | v :: vs, k :: ks => matchesKind v k && matchesKindList vs ks
  | _, _ => false

/-- Conformance of every element of a list to a single kind. -/
def matchesKindAll : List AbiValue → AbiKind → Bool
  | [], _ => true
  | v :: vs, k => matchesKind v k && matchesKindAll vs k

end

mutual

/-- Maximum dynamic-array nesting depth of a value traversal. -/
def valueDepth : AbiValue → Nat
  | .tuple vs => valueDepthList vs
  | .fixedArray _ vs => valueDepthList vs
  | .array _ vs => valueDepthList vs + 1
  | _ => 0

/-- Maximum traversal depth over a list of values. -/
def valueDepthList : List AbiValue → Nat
  | [] => 0
  | v :: vs => max (valueDepth v) (valueDepthList vs)

end

/-- A physical SQLite cell as produced by the value encoder
(`rusqlite::types::Value`, restricted to the variants the encoder emits). -/
inductive SqlValue where
  | integer (i : Int)
  | blob (bytes : List Nat)
deriving DecidableEq

/-- Physical type of an encoded cell. -/
def SqlValue.sqlType : SqlValue → SqlType
  | .integer _ => .integer
  | .blob _ => .blob

/-- Big-endian byte sequence of a given width (most significant byte
first); the value is reduced modulo `256 ^ width`. -/
def beBytes : Nat → Nat → List Nat
  | 0, _ => []
  | w + 1, v => beBytes w (v / 256) ++ [v % 256]

/-- UTF-8 encoding of one character (Rust `str::as_bytes`). -/
def charUtf8 (c : Char) : List Nat :=
  let n := c.toNat
  if n < 0x80 then [n]
  else if n < 0x800 then [0xC0 + n / 64, 0x80 + n % 64]
  else if n < 0x10000 then
    [0xE0 + n / 4096, 0x80 + (n / 64) % 64, 0x80 + n % 64]
  else
    [0xF0 + n / 262144, 0x80 + (n / 4096) % 64, 0x80 + (n / 64) % 64,
      0x80 + n % 64]

/-- UTF-8 bytes of a string. -/
def utf8Bytes (s : String) : List Nat := s.data.flatMap charUtf8

/-- The leaf-encoding arms of `store_event`'s visitor closure.  solabi's
`Int`/`Uint` hold 256-bit words, so `to_be_bytes` yields 32 big-endian
bytes (two's complement for signed); addresses are their raw 20 bytes;
booleans become SQL integers 0/1; fixed byte strings and dynamic bytes are
raw; a function reference is the 20-byte address followed by the 4-byte
selector; strings are their UTF-8 bytes.  `none` corresponds to the
`unreachable!()` arm (composite values never occur as leaf events). -/
def encodeLeaf : AbiValue → Option SqlValue
  | .int _ v => some (.blob (beBytes 32 (v % (2 ^ 256 : Nat)).toNat))
  | .uint _ v => some (.blob (beBytes 32 v))
  | .address bs => some (.blob bs)
  | .bool b => some (.integer (if b then 1 else 0))
  | .fixedBytes bs => some (.blob bs)
  | .function a s => some (.blob (a ++ s))
  | .bytes bs => some (.blob bs)
  | .string s => some (.blob (utf8Bytes s))
  | _ => none

mutual

/-- Closed-form encoding contribution of one value: the pair of
(cells appended to the root row, per-dynamic-array groups of
(element count, concatenated element cells)). -/
def valueEnc : AbiValue → List SqlValue × List (Nat × List SqlValue)
  | .tuple vs => valueEncList vs
  | .fixedArray _ vs => valueEncList vs
  | .array _ vs => ([], [(vs.length, (valueEncList vs).1)])
  | v => ((encodeLeaf v).toList, [])

/-- Concatenated encoding contributions of a list of values. -/
def valueEncList : List AbiValue → List SqlValue × List (Nat × List SqlValue)
  | [] => ([], [])
  | v :: vs =>
      ((valueEnc v).1 ++ (valueEncList vs).1,
        (valueEnc v).2 ++ (valueEncList vs).2)

end

/-- One step of `has_nested_dynamic_arrays`'s visitor closure: the state is
the pair (current level, maximum level). -/
def depthStep (s : Nat × Nat) (v : VisitKind) : Nat × Nat :=
  match v with
  | .arrayStart => (s.1 + 1, max s.2 (s.1 + 1))
  | .arrayEnd => (s.1 - 1, s.2)
  | .value _ => s

/-- `has_nested_dynamic_arrays`: runs the level-counting visitor over the
kind's traversal and checks whether the maximum level exceeds 1. -/
def has_nested_dynamic_arrays (value : AbiKind) : Bool :=
  1 < ((visitKind value).foldl depthStep (0, 0)).2

/-- The physical type assigned to a scalar leaf by `map_value`'s visitor;
`none` corresponds to the `unreachable!()` arm (composite kinds never
occur as leaf events of the traversal). -/
def leafSqlType : AbiKind → Option SqlType
  | .int _ => some .blob
  | .uint _ => some .blob
  | .address => some .blob
  | .bool => some .integer
  | .fixedBytes _ => some .blob
  | .function => some .blob
  | .bytes => some .blob
  | .string => some .blob
  | _ => none

/-- `tables[i].0.push(column)` on a list of tables. -/
def pushColumn (tables : List Table) (i : Nat) (c : Column) : List Table :=
  tables.set i ⟨(tables.getD i ⟨[]⟩).columns ++ [c]⟩

/-- One step of `map_value`'s visitor closure: the state is the table list
together with the current table index. -/
def mapValueStep (s : List Table × Nat) (v : VisitKind) : List Table × Nat :=
  match v with
  | .value k =>
      match leafSqlType k with
      | some t => (pushColumn s.1 s.2 t, s.2)
      | none => s
  | .arrayStart => (s.1 ++ [⟨[]⟩], s.1.length)
  | .arrayEnd => (s.1, 0)

/-- `map_value`: runs the visitor over the kind's traversal, starting at
the root table (index 0). -/
def map_value (tables : List Table) (value : AbiKind) : List Table :=
  ((visitKind value).foldl mapValueStep (tables, 0)).1

/-- `solabi::abi::Field`, modelled from the spec (field name and kind; the
source name `Field` is taken by Mathlib). -/
structure AbiField where
  name : String
  kind : AbiKind
deriving DecidableEq

/-- `solabi::abi::EventField`, modelled from the spec. -/
structure EventField where
  field : AbiField
  indexed : Bool
deriving DecidableEq

/-- `solabi::abi::EventDescriptor`, modelled from the spec data model:
event name, ordered fields, anonymous flag. -/
structure EventDescriptor where
  name : String
  inputs : List EventField
  anonymous : Bool
deriving DecidableEq

/-- Decidable equality for `Except` results (needed to evaluate concrete
runs of the embedded operations). -/
instance {e a : Type} [DecidableEq e] [DecidableEq a] : DecidableEq (Except e a) :=
  fun x y =>
    match x, y with
    | .ok u, .ok v => decidable_of_iff (u = v) (by simp)
    | .error u, .error v => decidable_of_iff (u = v) (by simp)
    | .ok _, .error _ => isFalse (fun h => Except.noConfusion h)
    | .error _, .ok _ => isFalse (fun h => Except.noConfusion h)

/-- Error taxonomy: one constructor per `anyhow!`/`context` error site of
the embedded operations. -/
inductive DbError where
  | unknownEvent
  | fieldCount (got expected : Nat)
  | fieldKind (i : Nat)
  | duplicateFieldName (name : String)
  | eventExistsDifferentSignature
  | nestedDynamicArrays
  | block0Uncled
  | blockOutOfBounds
  | unpreparedEvent
  | eventNotPrepared
  | indexedOutOfBounds
  | finalizedOutOfBounds
  | rowsChanged (rows : Nat)
  | queryReturnedNoRows
deriving DecidableEq

/-- `event_to_tables`: reject any field whose traversal nests dynamic
arrays, then fold `map_value` over the fields starting from a single empty
root table. -/
def event_to_tables (event : EventDescriptor) : Except DbError (List Table) :=
  let values := event.inputs.map (fun input => input.field.kind)
  if values.any has_nested_dynamic_arrays then .error .nestedDynamicArrays
  else .ok (values.foldl map_value [⟨[]⟩])

/-- ASCII alphanumeric test (Rust `char::is_ascii_alphanumeric`). -/
def isAsciiAlphanumeric (c : Char) : Bool :=
  ('a' ≤ c && c ≤ 'z') || ('A' ≤ c && c ≤ 'Z') || ('0' ≤ c && c ≤ '9')

/-- ASCII alphabetic test (Rust `char::is_ascii_alphabetic`). -/
def isAsciiAlphabetic (c : Char) : Bool :=
  ('a' ≤ c && c ≤ 'z') || ('A' ≤ c && c ≤ 'Z')

/-- ASCII lower-casing of one character (Rust `char::to_ascii_lowercase`). -/
def toAsciiLower (c : Char) : Char :=
  if 'A' ≤ c && c ≤ 'Z' then Char.ofNat (c.toNat + 32) else c

/-- Modelled from the spec: the `keywords` module
(`src/database/sqlite/keywords.rs`) is not among the provided sources; it
holds the reserved words of the target storage engine.  This is SQLite's
reserved keyword list, lower-cased. -/
def SQLITE_KEYWORDS : List String :=
  ["abort", "action", "add", "after", "all", "alter", "always", "analyze",
    "and", "as", "asc", "attach", "autoincrement", "before", "begin",
    "between", "by", "cascade", "case", "cast", "check", "collate",
    "column", "commit", "conflict", "constraint", "create", "cross",
    "current", "current_date", "current_time", "current_timestamp",
    "database", "default", "deferrable", "deferred", "delete", "desc",
    "detach", "distinct", "do", "drop", "each", "else", "end", "escape",
    "except", "exclude", "exclusive", "exists", "explain", "fail",
    "filter", "first", "following", "for", "foreign", "from", "full",
    "generated", "glob", "group", "groups", "having", "if", "ignore",
    "immediate", "in", "index", "indexed", "initially", "inner", "insert",
    "instead", "intersect", "into", "is", "isnull", "join", "key", "last",
    "left", "like", "limit", "match", "materialized", "natural", "no",
    "not", "nothing", "notnull", "null", "nulls", "of", "offset", "on",
    "or", "order", "others", "outer", "over", "partition", "plan",
    "pragma", "preceding", "primary", "query", "raise", "range",
    "recursive", "references", "regexp", "reindex", "release", "rename",
    "replace", "restrict", "returning", "right", "rollback", "row",
    "rows", "savepoint", "select", "set", "table", "temp", "temporary",
    "then", "ties", "to", "transaction", "trigger", "unbounded", "union",
    "unique", "update", "using", "vacuum", "values", "view", "virtual",
    "when", "where", "window", "with", "without"]

/-- `SqliteInner::sanitize_name`: keep only ASCII alphanumerics and
underscores, prepend an underscore when the result is empty or does not
start with an ASCII letter, and append an underscore when the lower-cased
result is a reserved keyword. -/
def sanitize_name (name : String) : String :=
  let filtered := name.data.filter (fun c => isAsciiAlphanumeric c || c == '_')
  let result :=
    if filtered.isEmpty || !isAsciiAlphabetic (filtered.headD '_') then
      '_' :: filtered
    else filtered
  let lowercase := result.map toAsciiLower
  let result2 :=
    if SQLITE_KEYWORDS.any (fun word => word.data == lowercase) then
      result ++ ['_']
    else result
  String.mk result2

/-- `database::Log`, modelled from the spec interface: event name, block
number, log index, transaction index (u64 each, embedded as `Nat`),
20-byte address, and the field values. -/
structure Log where
  event : String
  block_number : Nat
  log_index : Nat
  transaction_index : Nat
  address : List Nat
  fields : List AbiValue
deriving DecidableEq

/-- `database::Block`, modelled from the spec interface. -/
structure Block where
  indexed : Nat
  finalized : Nat
deriving DecidableEq

/-- `database::EventBlock`, modelled from the spec interface. -/
structure EventBlock where
  event : String
  block : Block
deriving DecidableEq

/-- `database::Uncle`, modelled from the spec interface: event name plus
the orphaned block number (u64). -/
structure Uncle where
  event : String
  number : Nat
deriving DecidableEq

/-- `struct InsertStatement`: the statement's SQL text is realized by its
effect on the database model; the recorded `fields` count (event columns,
not counting fixed columns and the array index) is kept. -/
structure InsertStatement where
  fields : Nat
deriving DecidableEq

/-- `struct PreparedEvent`: descriptor, per-table insert statements, and
per-table range-delete statements (each identified by the table index it
deletes from, mirroring `DELETE FROM {name}_{i} ...`). -/
structure PreparedEvent where
  descriptor : EventDescriptor
  insert_statements : List InsertStatement
  remove_statements : List Nat
deriving DecidableEq

/-- The in-memory registry `SqliteInner.events`. -/
abbrev Registry := List (String × PreparedEvent)

/-- Look up an association list by key (`HashMap::get`). -/
def alGet {α : Type} (l : List (String × α)) (k : String) : Option α :=
  (l.find? (fun e => e.1 = k)).map (fun e => e.2)

/-- Insert or replace a binding (`HashMap::insert`). -/
def alPut {α : Type} (l : List (String × α)) (k : String) (v : α) :
    List (String × α) :=
  if (l.find? (fun e => e.1 = k)).isSome then
    l.map (fun e => if e.1 = k then (k, v) else e)
  else l ++ [(k, v)]

/-- One row of an event data table: the fixed columns (block number, log
index, transaction index, address), the array-index column for array
tables, and the encoded event cells. -/
structure Row where
  block_number : Int
  log_index : Int
  transaction_index : Int
  address : List Nat
  array_index : Option Int
  cells : List SqlValue
deriving DecidableEq

/-- The persistent store, at the granularity the statements act on: the
`event_block` control table (event → (indexed, finalized), both i64) and
the per-event data tables, keyed by (sanitized event name, table index). -/
structure Db where
  event_block : List (String × (Int × Int))
  tables : List ((String × Nat) × List Row)
deriving DecidableEq

/-- Rows of the data table `{name}_{i}` (empty if the table is absent). -/
def Db.rowsOf (db : Db) (name : String) (i : Nat) : List Row :=
  ((db.tables.find? (fun e => e.1 = (name, i))).map (fun e => e.2)).getD []

/-- Apply `f` to the rows of table `{name}_{i}` (no-op if absent, like an
SQL statement that affects zero rows). -/
def Db.updTable (db : Db) (name : String) (i : Nat) (f : List Row → List Row) :
    Db :=
  { db with
    tables := db.tables.map (fun e => if e.1 = (name, i) then (e.1, f e.2) else e) }

/-- `CREATE TABLE IF NOT EXISTS {name}_{i}`: add an empty table when the
key is absent, keep the existing rows otherwise. -/
def Db.createTable (db : Db) (name : String) (i : Nat) : Db :=
  if (db.tables.find? (fun e => e.1 = (name, i))).isSome then db
  else { db with tables := db.tables ++ [((name, i), [])] }

/-- i64 conversion of a u64 (`try_into`): succeeds iff the value fits. -/
def i64OfNat (n : Nat) : Option Int :=
  if n < 2 ^ 63 then some (n : Int) else none

/-- u64 conversion of an i64 (`try_into`): succeeds iff non-negative. -/
def natOfI64 (i : Int) : Option Nat :=
  if 0 ≤ i then some i.toNat else none

/-- First duplicate in a list of (sanitized) field names, tracking the set
of names already seen, as `prepare_event`'s column-name loop does. -/
def firstDuplicate (seen : List String) : List String → Option String
  | [] => none
  | n :: ns => if seen.contains n then some n else firstDuplicate (n :: seen) ns

/-- `SqliteInner::prepare_event`: sanitize the event name, reject
duplicate sanitized field names, return early (checking the descriptor)
when the event is already registered; otherwise compile the schema, create
the tables and the cursor row, build the per-table statements and register
the event. -/
def prepare_event (events : Registry) (db : Db) (rawName : String)
    (event : EventDescriptor) : Except DbError (Registry × Db) :=
  let name := sanitize_name rawName
  match firstDuplicate []
      (event.inputs.map (fun input => sanitize_name input.field.name)) with
  | some dup => .error (.duplicateFieldName dup)
  | none =>
    match alGet events name with
    | some existing =>
        if event ≠ existing.descriptor then .error .eventExistsDifferentSignature
        else .ok (events, db)
    | none =>
      match event_to_tables event with
      | .error e => .error e
      | .ok tables =>
        let db1 := (List.range tables.length).foldl
          (fun d i => d.createTable name i) db
        let db2 :=
          if (db1.event_block.find? (fun e => e.1 = name)).isSome then db1
          else { db1 with event_block := db1.event_block ++ [(name, (0, 0))] }
        let insert_statements :=
          tables.map (fun t => InsertStatement.mk t.columns.length)
        let remove_statements := List.range tables.length
        .ok (alPut events name ⟨event, insert_statements, remove_statements⟩, db2)

/-- `SqliteInner::event_block`: read the cursor row and convert both i64
fields back to u64. -/
def event_block (db : Db) (name : String) : Except DbError Block :=
  let sname := sanitize_name name
  match alGet db.event_block sname with
  | none => .error .queryReturnedNoRows
  | some p =>
    match natOfI64 p.1 with
    | none => .error .indexedOutOfBounds
    | some a =>
      match natOfI64 p.2 with
      | none => .error .finalizedOutOfBounds
      | some b => .ok ⟨a, b⟩

/-- Effect of the `SET_EVENT_BLOCK` statement: overwrite both cursor
fields of the named event. -/
def setEventBlockRow (db : Db) (name : String) (ix fin : Int) : Db :=
  { db with
    event_block :=
      db.event_block.map (fun e => if e.1 = name then (e.1, (ix, fin)) else e) }

/-- `SqliteInner::set_event_blocks`: for each cursor update, require the
event to be registered, convert both block numbers to i64, execute the
update and fail unless exactly one row was affected. -/
def set_event_blocks (events : Registry) (db : Db) :
    List EventBlock → Except DbError Db
  | [] => .ok db
  | b :: bs =>
    let name := sanitize_name b.event
    if (alGet events name).isNone then .error .eventNotPrepared
    else
      match i64OfNat b.block.indexed with
      | none => .error .indexedOutOfBounds
      | some ix =>
        match i64OfNat b.block.finalized with
        | none => .error .finalizedOutOfBounds
        | some fin =>
          let rows := (db.event_block.filter (fun e => e.1 = name)).length
          let db2 := setEventBlockRow db name ix fin
          if rows ≠ 1 then .error (.rowsChanged rows)
          else set_event_blocks events db2 bs

/-- Result of an operation that can also panic (a Rust `unwrap` or
`assert_eq!` failure, as opposed to a returned error). -/
inductive Outcome (α : Type) where
  | ok (val : α)
  | error (e : DbError)
  | panicked
deriving DecidableEq

/-- One step of `store_event`'s value-visitor closure: the state is the
`sql_values` accumulator (per table: optional array element count and the
encoded cells) together with the `in_array` flag.  Leaves are pushed onto
the first accumulator outside arrays and onto the last one inside. -/
def storeStep (s : List (Option Nat × List SqlValue) × Bool) (ev : VisitValue) :
    List (Option Nat × List SqlValue) × Bool :=
  match ev with
  | .arrayStart len => (s.1 ++ [(some len, [])], true)
  | .arrayEnd => (s.1, false)
  | .value v =>
    match encodeLeaf v with
    | some cell =>
        let i := if s.2 then s.1.length - 1 else 0
        let entry := s.1.getD i (none, [])
        (s.1.set i (entry.1, entry.2 ++ [cell]), s.2)
    | none => s

/-- The `sql_values` accumulator of `store_event` after visiting every
field: one entry for the root table followed by one entry per encountered
dynamic array, in traversal order. -/
def storeSqlValues (fields : List AbiValue) : List (Option Nat × List SqlValue) :=
  ((fields.flatMap visitValue).foldl storeStep ([(none, [])], false)).1

/-- The rows inserted into one table for one accumulator group: one row
per array element (one row total for the root table), the array-index
column holding the element's zero-based position. -/
def groupRows (stFields cnt : Nat) (isArray : Bool) (cells : List SqlValue)
    (bn li ti : Int) (addr : List Nat) : List Row :=
  (List.range cnt).map (fun (i : Nat) =>
    { block_number := bn, log_index := li, transaction_index := ti,
      address := addr,
      array_index := if isArray then some (Int.ofNat i) else none,
      cells := (cells.drop (i * stFields)).take stFields })

/-- The insert loop of `store_event` over the zipped insert statements and
accumulator groups; `idx` is the table index.  The `assert_eq!` on the
cell count and the `unwrap` on the array-index i64 conversion are modelled
as panics. -/
def insertGroups (name : String) (bn li ti : Int) (addr : List Nat) :
    Db → Nat → List (InsertStatement × (Option Nat × List SqlValue)) →
    Outcome Db
  | db, _, [] => .ok db
  | db, idx, (st, g) :: rest =>
    let isArray := g.1.isSome
    let cnt := g.1.getD 1
    if st.fields * cnt ≠ g.2.length then .panicked
    else if isArray && decide (2 ^ 63 < cnt) then .panicked
    else
      insertGroups name bn li ti addr
        (db.updTable name idx
          (fun rows => rows ++ groupRows st.fields cnt isArray g.2 bn li ti addr))
        (idx + 1) rest

/-- The field-kind check loop of `store_event`: the index of the first
zipped (value, declared field) pair whose runtime kind differs from the
declared kind, starting the count at `i`. -/
def firstKindMismatch (i : Nat) : List (AbiValue × EventField) → Option Nat
  | [] => none
  | p :: ps =>
    if p.1.kind ≠ p.2.field.kind then some i else firstKindMismatch (i + 1) ps

/-- `SqliteInner::store_event`: look the event up by sanitized name, check
the field count and each field's kind against the descriptor, run the
value visitor, convert the fixed columns (panicking on overflow, as the
source's `unwrap`s do) and execute one insert per resulting row. -/
def store_event (events : Registry) (db : Db) (log : Log) : Outcome Db :=
  let name := sanitize_name log.event
  match alGet events name with
  | none => .error .unknownEvent
  | some event =>
    if log.fields.length ≠ event.descriptor.inputs.length then
      .error (.fieldCount log.fields.length event.descriptor.inputs.length)
    else
      match firstKindMismatch 0 (log.fields.zip event.descriptor.inputs) with
      | some i => .error (.fieldKind i)
      | none =>
        let svs := storeSqlValues log.fields
        match i64OfNat log.block_number, i64OfNat log.log_index,
            i64OfNat log.transaction_index with
        | some bn, some li, some ti =>
            insertGroups name bn li ti log.address db 0
              (event.insert_statements.zip svs)
        | _, _, _ => .panicked

/-- The log-insertion loop of `update`. -/
def storeAll (events : Registry) : Db → List Log → Outcome Db
  | db, [] => .ok db
  | db, l :: ls =>
    match store_event events db l with
    | .ok db2 => storeAll events db2 ls
    | .error e => .error e
    | .panicked => .panicked

/-- `SqliteInner::update`: apply the cursor updates first, then insert the
logs. -/
def update (events : Registry) (db : Db) (blocks : List EventBlock)
    (logs : List Log) : Outcome Db :=
  match set_event_blocks events db blocks with
  | .error e => .error e
  | .ok db2 => storeAll events db2 logs

/-- The body of `remove`'s per-statement loop: delete from table
`{name}_{i}` every row with block number at or above `block`, then set the
cursor's indexed value to `parent` (`set_indexed_block` is executed once
per table, as in the source; `finalized` is untouched). -/
def removeStep (name : String) (block parent : Int) (db : Db) (i : Nat) : Db :=
  let db1 := db.updTable name i
    (fun rows => rows.filter (fun r => !decide (r.block_number ≥ block)))
  { db1 with
    event_block :=
      db1.event_block.map
        (fun e => if e.1 = name then (e.1, (parent, e.2.2)) else e) }

/-- `SqliteInner::remove` for a single uncle: fail on block 0, convert the
block number to i64, look the event up by sanitized name, then delete the
suffix from every table and rewind the cursor. -/
def removeUncle (events : Registry) (db : Db) (uncle : Uncle) :
    Except DbError Db :=
  let name := sanitize_name uncle.event
  if uncle.number = 0 then .error .block0Uncled
  else
    match i64OfNat uncle.number with
    | none => .error .blockOutOfBounds
    | some block =>
      let parent := block - 1
      match alGet events name with
      | none => .error .unpreparedEvent
      | some prepared =>
          .ok (prepared.remove_statements.foldl (removeStep name block parent) db)

/-- `SqliteInner::remove` over a batch of uncles. -/
def remove (events : Registry) (db : Db) : List Uncle → Except DbError Db
  | [] => .ok db
  | u :: us =>
    match removeUncle events db u with
    | .error e => .error e
    | .ok db2 => remove events db2 us

mutual

/-- Syntactic containment of a dynamic array anywhere in a kind tree
(directly, or through tuples or fixed arrays — of any size). -/
def containsDyn : AbiKind → Bool
  | .tuple ks => containsDynList ks
  | .fixedArray _ k => containsDyn k
  | .array _ => true
  | _ => false

/-- Syntactic containment over a list of kinds. -/
def containsDynList : List AbiKind → Bool
  | [] => false
  | k :: ks => containsDyn k || containsDynList ks

end

mutual

/-- Syntactic nesting: the kind tree contains a dynamic array nested
(directly, or through tuples or fixed arrays — of any size) inside
another dynamic array. -/
def containsNestedDyn : AbiKind → Bool
  | .tuple ks => containsNestedDynList ks
  | .fixedArray _ k => containsNestedDyn k
  | .array k => containsDyn k || containsNestedDyn k
  | _ => false

/-- Syntactic nesting over a list of kinds. -/
def containsNestedDynList : List AbiKind → Bool
  | [] => false
  | k :: ks => containsNestedDyn k || containsNestedDynList ks

end

mutual

/-- Containment of a dynamic array reachable by the element-wise
traversal: as `containsDyn`, except that a fixed array of size 0 hides its
element type (the traversal never visits it). -/
def containsDynT : AbiKind → Bool
  | .tuple ks => containsDynListT ks
  | .fixedArray n k => decide (n ≠ 0) && containsDynT k
  | .array _ => true
  | _ => false

/-- Reachable containment over a list of kinds. -/
def containsDynListT : List AbiKind → Bool
  | [] => false
  | k :: ks => containsDynT k || containsDynListT ks

end

mutual

/-- Nesting reachable by the element-wise traversal: a dynamic array
nested inside another dynamic array through tuples or fixed arrays of
nonzero size. -/
def containsNestedDynT : AbiKind → Bool
  | .tuple ks => containsNestedDynListT ks
  | .fixedArray n k => decide (n ≠ 0) && containsNestedDynT k
  | .array k => containsDynT k || containsNestedDynT k
  | _ => false

/-- Reachable nesting over a list of kinds. -/
def containsNestedDynListT : List AbiKind → Bool
  | [] => false
  | k :: ks => containsNestedDynT k || containsNestedDynListT ks

end

/-- Append columns to table `i` of a table list (iterated `pushColumn`). -/
def pushColumns (tables : List Table) (i : Nat) (cs : List Column) :
    List Table :=
  tables.set i ⟨(tables.getD i ⟨[]⟩).columns ++ cs⟩

/-- Append cells to accumulator entry `i`, keeping its element count. -/
def pushCells (svs : List (Option Nat × List SqlValue)) (i : Nat)
    (cs : List SqlValue) : List (Option Nat × List SqlValue) :=
  svs.set i ((svs.getD i (none, [])).1, (svs.getD i (none, [])).2 ++ cs)

theorem pushColumns_nil (ts : List Table) (i : Nat) (hi : i < ts.length) :
    pushColumns ts i [] = ts := by
  unfold pushColumns
  induction ts generalizing i with
  | nil => simp at hi
  | cons t ts ih =>
    cases i with
    | zero => simp [List.getD]
    | succ j =>
      simp only [List.set, List.getD_cons_succ]
      have := ih j (by simpa using hi)
      simp only [pushColumns] at this ⊢
      rw [this]

theorem pushColumns_append (ts : List Table) (i : Nat) (cs ds : List Column)
    (hi : i < ts.length) :
    pushColumns (pushColumns ts i cs) i ds = pushColumns ts i (cs ++ ds) := by
  unfold pushColumns
  induction ts generalizing i with
  | nil => simp at hi
  | cons t ts ih =>
    cases i with
    | zero => simp [List.getD]
    | succ j =>
      simp only [List.set, List.getD_cons_succ]
      have := ih j (by simpa using hi)
      simp only [pushColumns] at this ⊢
      rw [this]

theorem pushColumns_length (ts : List Table) (i : Nat) (cs : List Column) :
    (pushColumns ts i cs).length = ts.length := by
  simp [pushColumns]

theorem pushCells_nil (svs : List (Option Nat × List SqlValue)) (i : Nat)
    (hi : i < svs.length) : pushCells svs i [] = svs := by
  unfold pushCells
  induction svs generalizing i with
  | nil => simp at hi
  | cons g gs ih =>
    cases i with
    | zero => simp [List.getD]
    | succ j =>
      simp only [List.set, List.getD_cons_succ]
      have := ih j (by simpa using hi)
      simp only [pushCells] at this ⊢
      rw [this]

theorem pushCells_append (svs : List (Option Nat × List SqlValue)) (i : Nat)
    (cs ds : List SqlValue) (hi : i < svs.length) :
    pushCells (pushCells svs i cs) i ds = pushCells svs i (cs ++ ds) := by
  unfold pushCells
  induction svs generalizing i with
  | nil => simp at hi
  | cons g gs ih =>
    cases i with
    | zero => simp [List.getD]
    | succ j =>
      simp only [List.set, List.getD_cons_succ]
      have := ih j (by simpa using hi)
      simp only [pushCells] at this ⊢
      rw [this]

theorem pushCells_length (svs : List (Option Nat × List SqlValue)) (i : Nat)
    (cs : List SqlValue) : (pushCells svs i cs).length = svs.length := by
  simp [pushCells]

theorem depthFoldRep (evs : List VisitKind) (d : Nat)
    (hevs : ∀ l m, l ≤ m → evs.foldl depthStep (l, m) = (l, max m (l + d))) :
    ∀ (n l m : Nat), l ≤ m →
      (eventsRep n evs).foldl depthStep (l, m) =
        (l, max m (l + (if n = 0 then 0 else d)))
  | 0, l, m, h => by
      simp [eventsRep, Nat.max_eq_left h]
  | n + 1, l, m, h => by
      have h1 := hevs l m h
      have h2 := depthFoldRep evs d hevs n l (max m (l + d))
        (Nat.le_trans h (Nat.le_max_left _ _))
      simp only [eventsRep, List.foldl_append]
      rw [h1, h2]
      simp only [Prod.mk.injEq, true_and]
      by_cases hn : n = 0 <;> simp [hn] <;> omega

mutual

theorem depthFold : ∀ (k : AbiKind) (l m : Nat), l ≤ m →
    (visitKind k).foldl depthStep (l, m) = (l, max m (l + kindDepth k))
  | .int _, l, m, h => by
      simp [visitKind, depthStep, kindDepth, Nat.max_eq_left h]
  | .uint _, l, m, h => by
      simp [visitKind, depthStep, kindDepth, Nat.max_eq_left h]
  | .address, l, m, h => by
      simp [visitKind, depthStep, kindDepth, Nat.max_eq_left h]
  | .bool, l, m, h => by
      simp [visitKind, depthStep, kindDepth, Nat.max_eq_left h]
  | .fixedBytes _, l, m, h => by
      simp [visitKind, depthStep, kindDepth, Nat.max_eq_left h]
  | .function, l, m, h => by
      simp [visitKind, depthStep, kindDepth, Nat.max_eq_left h]
  | .bytes, l, m, h => by
      simp [visitKind, depthStep, kindDepth, Nat.max_eq_left h]
  | .string, l, m, h => by
      simp [visitKind, depthStep, kindDepth, Nat.max_eq_left h]
  | .tuple ks, l, m, h => by
      simpa [visitKind, kindDepth] using depthFoldList ks l m h
  | .fixedArray n k, l, m, h => by
      simpa [visitKind, kindDepth] using
        depthFoldRep (visitKind k) (kindDepth k) (depthFold k) n l m h
  | .array k, l, m, h => by
      have h2 := depthFold k (l + 1) (max m (l + 1)) (Nat.le_max_right _ _)
      simp only [visitKind, kindDepth, List.foldl_cons, List.foldl_append,
        List.foldl_nil, depthStep]
      rw [h2]
      simp only [depthStep, Prod.mk.injEq]
      constructor <;> omega

theorem depthFoldList : ∀ (ks : List AbiKind) (l m : Nat), l ≤ m →
    (visitKindList ks).foldl depthStep (l, m) =
      (l, max m (l + kindDepthList ks))
  | [], l, m, h => by
      simp [visitKindList, kindDepthList, Nat.max_eq_left h]
  | k :: ks, l, m, h => by
      have h1 := depthFold k l m h
      have h2 := depthFoldList ks l (max m (l + kindDepth k))
        (Nat.le_trans h (Nat.le_max_left _ _))
      simp only [visitKindList, kindDepthList, List.foldl_append]
      rw [h1, h2]
      simp only [Prod.mk.injEq, true_and]
      omega

end

theorem has_nested_eq (k : AbiKind) :
    has_nested_dynamic_arrays k = decide (1 < kindDepth k) := by
  unfold has_nested_dynamic_arrays
  rw [depthFold k 0 0 (Nat.le_refl 0)]
  simp

theorem pushColumns_last (xs : List Table) (cs : List Column) :
    pushColumns (xs ++ [⟨[]⟩]) xs.length cs = xs ++ [⟨cs⟩] := by
  unfold pushColumns
  induction xs with
  | nil => simp [List.getD]
  | cons t ts ih =>
    simp only [List.cons_append, List.length_cons, List.set, List.getD_cons_succ]
    exact congrArg (List.cons t) ih

theorem pushCells_last (xs : List (Option Nat × List SqlValue))
    (g : Option Nat × List SqlValue) (cs : List SqlValue) :
    pushCells (xs ++ [g]) xs.length cs = xs ++ [(g.1, g.2 ++ cs)] := by
  unfold pushCells
  induction xs with
  | nil => simp [List.getD]
  | cons x ts ih =>
    simp only [List.cons_append, List.length_cons, List.set, List.getD_cons_succ]
    exact congrArg (List.cons x) ih

theorem mapFoldRepFlat (evs : List VisitKind) (cols : List Column)
    (hevs : ∀ ts i, i < ts.length →
      evs.foldl mapValueStep (ts, i) = (pushColumns ts i cols, i)) :
    ∀ (n : Nat) (ts : List Table) (i : Nat), i < ts.length →
      (eventsRep n evs).foldl mapValueStep (ts, i) =
        (pushColumns ts i (eventsRep n cols), i)
  | 0, ts, i, hi => by simp [eventsRep, pushColumns_nil ts i hi]
  | n + 1, ts, i, hi => by
      have h1 := hevs ts i hi
      have h2 := mapFoldRepFlat evs cols hevs n (pushColumns ts i cols) i
        (by rw [pushColumns_length]; exact hi)
      simp only [eventsRep, List.foldl_append]
      rw [h1, h2, pushColumns_append ts i _ _ hi]

mutual

theorem mapFoldFlat : ∀ (k : AbiKind), kindDepth k = 0 →
    ∀ (ts : List Table) (i : Nat), i < ts.length →
      (visitKind k).foldl mapValueStep (ts, i) =
        (pushColumns ts i (kindSchema k).1, i)
  | .int _, _, ts, i, _ => by
      simp [visitKind, mapValueStep, leafSqlType, kindSchema, pushColumn,
        pushColumns]
  | .uint _, _, ts, i, _ => by
      simp [visitKind, mapValueStep, leafSqlType, kindSchema, pushColumn,
        pushColumns]
  | .address, _, ts, i, _ => by
      simp [visitKind, mapValueStep, leafSqlType, kindSchema, pushColumn,
        pushColumns]
  | .bool, _, ts, i, _ => by
      simp [visitKind, mapValueStep, leafSqlType, kindSchema, pushColumn,
        pushColumns]
  | .fixedBytes _, _, ts, i, _ => by
      simp [visitKind, mapValueStep, leafSqlType, kindSchema, pushColumn,
        pushColumns]
  | .function, _, ts, i, _ => by
      simp [visitKind, mapValueStep, leafSqlType, kindSchema, pushColumn,
        pushColumns]
  | .bytes, _, ts, i, _ => by
      simp [visitKind, mapValueStep, leafSqlType, kindSchema, pushColumn,
        pushColumns]
  | .string, _, ts, i, _ => by
      simp [visitKind, mapValueStep, leafSqlType, kindSchema, pushColumn,
        pushColumns]
  | .tuple ks, h, ts, i, hi => by
      have hks : kindDepthList ks = 0 := by simpa [kindDepth] using h
      simpa [visitKind, kindSchema] using mapFoldFlatList ks hks ts i hi
  | .fixedArray n k, h, ts, i, hi => by
      cases n with
      | zero => simp [visitKind, eventsRep, kindSchema, pushColumns_nil ts i hi]
      | succ n2 =>
        have hk : kindDepth k = 0 := by simpa [kindDepth] using h
        simpa [visitKind, kindSchema] using
          mapFoldRepFlat (visitKind k) (kindSchema k).1
            (mapFoldFlat k hk) (n2 + 1) ts i hi
  | .array k, h, ts, i, hi => by
      simp [kindDepth] at h

theorem mapFoldFlatList : ∀ (ks : List AbiKind), kindDepthList ks = 0 →
    ∀ (ts : List Table) (i : Nat), i < ts.length →
      (visitKindList ks).foldl mapValueStep (ts, i) =
        (pushColumns ts i (kindSchemaList ks).1, i)
  | [], _, ts, i, hi => by
      simp [visitKindList, kindSchemaList, pushColumns_nil ts i hi]
  | k :: ks, h, ts, i, hi => by
      have hk : kindDepth k = 0 := by
        simp only [kindDepthList, Nat.max_eq_zero_iff] at h; exact h.1
      have hks : kindDepthList ks = 0 := by
        simp only [kindDepthList, Nat.max_eq_zero_iff] at h; exact h.2
      have h1 := mapFoldFlat k hk ts i hi
      have h2 := mapFoldFlatList ks hks (pushColumns ts i (kindSchema k).1) i
        (by rw [pushColumns_length]; exact hi)
      simp only [visitKindList, kindSchemaList, List.foldl_append]
      rw [h1, h2, pushColumns_append ts i _ _ hi]

end

theorem mapFoldRepRoot (evs : List VisitKind) (cols : List Column)
    (tabs : List (List Column))
    (hevs : ∀ (t0 : Table) (rest : List Table),
      evs.foldl mapValueStep (t0 :: rest, 0) =
        (⟨t0.columns ++ cols⟩ :: (rest ++ tabs.map Table.mk), 0)) :
    ∀ (n : Nat) (t0 : Table) (rest : List Table),
      (eventsRep n evs).foldl mapValueStep (t0 :: rest, 0) =
        (⟨t0.columns ++ eventsRep n cols⟩ ::
          (rest ++ (eventsRep n tabs).map Table.mk), 0)
  | 0, t0, rest => by simp [eventsRep]
  | n + 1, t0, rest => by
      have h1 := hevs t0 rest
      have h2 := mapFoldRepRoot evs cols tabs hevs n ⟨t0.columns ++ cols⟩
        (rest ++ tabs.map Table.mk)
      simp only [eventsRep, List.foldl_append]
      rw [h1, h2]
      simp [List.append_assoc, List.map_append]

mutual

theorem mapFold : ∀ (k : AbiKind), kindDepth k ≤ 1 →
    ∀ (t0 : Table) (rest : List Table),
      (visitKind k).foldl mapValueStep (t0 :: rest, 0) =
        (⟨t0.columns ++ (kindSchema k).1⟩ ::
          (rest ++ (kindSchema k).2.map Table.mk), 0)
  | .int _, _, t0, rest => by
      simp [visitKind, mapValueStep, leafSqlType, kindSchema, pushColumn,
        List.getD]
  | .uint _, _, t0, rest => by
      simp [visitKind, mapValueStep, leafSqlType, kindSchema, pushColumn,
        List.getD]
  | .address, _, t0, rest => by
      simp [visitKind, mapValueStep, leafSqlType, kindSchema, pushColumn,
        List.getD]
  | .bool, _, t0, rest => by
      simp [visitKind, mapValueStep, leafSqlType, kindSchema, pushColumn,
        List.getD]
  | .fixedBytes _, _, t0, rest => by
      simp [visitKind, mapValueStep, leafSqlType, kindSchema, pushColumn,
        List.getD]
  | .function, _, t0, rest => by
      simp [visitKind, mapValueStep, leafSqlType, kindSchema, pushColumn,
        List.getD]
  | .bytes, _, t0, rest => by
      simp [visitKind, mapValueStep, leafSqlType, kindSchema, pushColumn,
        List.getD]
  | .string, _, t0, rest => by
      simp [visitKind, mapValueStep, leafSqlType, kindSchema, pushColumn,
        List.getD]
  | .tuple ks, h, t0, rest => by
      have hks : kindDepthList ks ≤ 1 := by simpa [kindDepth] using h
      simpa [visitKind, kindSchema] using mapFoldList ks hks t0 rest
  | .fixedArray n k, h, t0, rest => by
      cases n with
      | zero => simp [visitKind, eventsRep, kindSchema]
      | succ n2 =>
        have hk : kindDepth k ≤ 1 := by simpa [kindDepth] using h
        simpa [visitKind, kindSchema] using
          mapFoldRepRoot (visitKind k) (kindSchema k).1 (kindSchema k).2
            (mapFold k hk) (n2 + 1) t0 rest
  | .array k, h, t0, rest => by
      have hk : kindDepth k = 0 := by
        simp only [kindDepth] at h; omega
      have hlt : (t0 :: rest).length < ((t0 :: rest) ++ [(⟨[]⟩ : Table)]).length := by
        simp
      have h2 := mapFoldFlat k hk ((t0 :: rest) ++ [⟨[]⟩]) (t0 :: rest).length hlt
      simp only [visitKind, List.foldl_cons, List.foldl_append, List.foldl_nil,
        mapValueStep]
      rw [h2, pushColumns_last]
      simp [kindSchema, mapValueStep]

theorem mapFoldList : ∀ (ks : List AbiKind), kindDepthList ks ≤ 1 →
    ∀ (t0 : Table) (rest : List Table),
      (visitKindList ks).foldl mapValueStep (t0 :: rest, 0) =
        (⟨t0.columns ++ (kindSchemaList ks).1⟩ ::
          (rest ++ (kindSchemaList ks).2.map Table.mk), 0)
  | [], _, t0, rest => by simp [visitKindList, kindSchemaList]
  | k :: ks, h, t0, rest => by
      have hk : kindDepth k ≤ 1 := by
        simp only [kindDepthList, Nat.max_le] at h; exact h.1
      have hks : kindDepthList ks ≤ 1 := by
        simp only [kindDepthList, Nat.max_le] at h; exact h.2
      have h1 := mapFold k hk t0 rest
      have h2 := mapFoldList ks hks ⟨t0.columns ++ (kindSchema k).1⟩
        (rest ++ (kindSchema k).2.map Table.mk)
      simp only [visitKindList, kindSchemaList, List.foldl_append]
      rw [h1, h2]
      simp [List.append_assoc, List.map_append]

end

/-- The declared field kinds of a descriptor, in order. -/
def fieldKinds (event : EventDescriptor) : List AbiKind :=
  event.inputs.map (fun input => input.field.kind)

theorem foldMapValue : ∀ (ks : List AbiKind), (∀ k ∈ ks, kindDepth k ≤ 1) →
    ∀ (t0 : Table) (rest : List Table),
      ks.foldl map_value (t0 :: rest) =
        ⟨t0.columns ++ (kindSchemaList ks).1⟩ ::
          (rest ++ (kindSchemaList ks).2.map Table.mk)
  | [], _, t0, rest => by simp [kindSchemaList]
  | k :: ks, h, t0, rest => by
      have h1 := mapFold k (h k (by simp)) t0 rest
      have h2 := foldMapValue ks (fun k2 hk2 => h k2 (by simp [hk2]))
        ⟨t0.columns ++ (kindSchema k).1⟩ (rest ++ (kindSchema k).2.map Table.mk)
      simp only [List.foldl_cons, map_value]
      rw [h1]
      simp only at h2 ⊢
      rw [h2]
      simp [List.append_assoc, List.map_append, kindSchemaList]

theorem event_to_tables_ok (ed : EventDescriptor)
    (h : ∀ k ∈ fieldKinds ed, kindDepth k ≤ 1) :
    event_to_tables ed =
      .ok (⟨(kindSchemaList (fieldKinds ed)).1⟩ ::
        (kindSchemaList (fieldKinds ed)).2.map Table.mk) := by
  have hany : (fieldKinds ed).any has_nested_dynamic_arrays = false := by
    simp only [List.any_eq_false]
    intro k hk
    rw [has_nested_eq]
    simpa using Nat.not_lt.mpr (h k hk)
  unfold event_to_tables
  simp only [fieldKinds] at hany h ⊢
  rw [hany]
  simp only [Bool.false_eq_true, if_false]
  rw [foldMapValue _ h ⟨[]⟩ []]
  simp

theorem event_to_tables_error (ed : EventDescriptor)
    (h : ∃ k ∈ fieldKinds ed, 1 < kindDepth k) :
    event_to_tables ed = .error .nestedDynamicArrays := by
  have hany : (fieldKinds ed).any has_nested_dynamic_arrays = true := by
    rcases h with ⟨k, hk, hd⟩
    refine List.any_eq_true.mpr ⟨k, hk, ?_⟩
    rw [has_nested_eq]
    simpa using hd
  unfold event_to_tables
  simp only [fieldKinds] at hany ⊢
  rw [hany]
  simp

theorem event_to_tables_depth (ed : EventDescriptor) (tbls : List Table)
    (h : event_to_tables ed = .ok tbls) :
    ∀ k ∈ fieldKinds ed, kindDepth k ≤ 1 := by
  intro k hk
  by_contra hd
  rw [event_to_tables_error ed ⟨k, hk, Nat.lt_of_not_le hd⟩] at h
  exact Except.noConfusion h

theorem eventsRep_length {α : Type} (n : Nat) (l : List α) :
    (eventsRep n l).length = n * l.length := by
  induction n with
  | zero => simp [eventsRep]
  | succ n ih => simp [eventsRep, ih, Nat.succ_mul, Nat.add_comm]

theorem eventsRep_map {α β : Type} (f : α → β) (n : Nat) (l : List α) :
    (eventsRep n l).map f = eventsRep n (l.map f) := by
  induction n with
  | zero => simp [eventsRep]
  | succ n ih => simp [eventsRep, ih]

mutual

/-- Claim-side count: the number of flattened scalar leaves of a kind
lying outside any dynamic array — tuples and fixed arrays flatten, a fixed
array of size `s` multiplying the count by `s`. -/
def scalarLeafCount : AbiKind → Nat
  | .tuple ks => scalarLeafCountList ks
  | .fixedArray s k => s * scalarLeafCount k
  | .array _ => 0
  | _ => 1

/-- Flattened scalar-leaf count over a list of kinds. -/
def scalarLeafCountList : List AbiKind → Nat
  | [] => 0
  | k :: ks => scalarLeafCount k + scalarLeafCountList ks

end

mutual

/-- Claim-side enumeration: the element types of the dynamic arrays
encountered by the traversal, in declaration order (a fixed array of size
`s` encounters its element's arrays `s` times).  Inner dynamic arrays of
an array's element type are excluded at schema compile time, so they are
not enumerated. -/
def dynElems : AbiKind → List AbiKind
  | .tuple ks => dynElemsList ks
  | .fixedArray s k => eventsRep s (dynElems k)
  | .array k => [k]
  | _ => []

/-- Encountered dynamic arrays over a list of kinds. -/
def dynElemsList : List AbiKind → List AbiKind
  | [] => []
  | k :: ks => dynElems k ++ dynElemsList ks

end

mutual

theorem kindSchema_len1 : ∀ (k : AbiKind),
    (kindSchema k).1.length = scalarLeafCount k
  | .int _ => rfl
  | .uint _ => rfl
  | .address => rfl
  | .bool => rfl
  | .fixedBytes _ => rfl
  | .function => rfl
  | .bytes => rfl
  | .string => rfl
  | .tuple ks => by
      simpa [kindSchema, scalarLeafCount] using kindSchema_len1List ks
  | .fixedArray s k => by
      simp [kindSchema, scalarLeafCount, eventsRep_length, kindSchema_len1 k]
  | .array k => by simp [kindSchema, scalarLeafCount]

theorem kindSchema_len1List : ∀ (ks : List AbiKind),
    (kindSchemaList ks).1.length = scalarLeafCountList ks
  | [] => rfl
  | k :: ks => by
      simp [kindSchemaList, scalarLeafCountList, kindSchema_len1 k,
        kindSchema_len1List ks]

end

mutual

theorem kindSchema_arrays : ∀ (k : AbiKind),
    (kindSchema k).2 = (dynElems k).map (fun ek => (kindSchema ek).1)
  | .int _ => rfl
  | .uint _ => rfl
  | .address => rfl
  | .bool => rfl
  | .fixedBytes _ => rfl
  | .function => rfl
  | .bytes => rfl
  | .string => rfl
  | .tuple ks => by
      simpa [kindSchema, dynElems] using kindSchema_arraysList ks
  | .fixedArray s k => by
      simp [kindSchema, dynElems, eventsRep_map, kindSchema_arrays k]
  | .array k => by simp [kindSchema, dynElems]

theorem kindSchema_arraysList : ∀ (ks : List AbiKind),
    (kindSchemaList ks).2 = (dynElemsList ks).map (fun ek => (kindSchema ek).1)
  | [] => rfl
  | k :: ks => by
      simp [kindSchemaList, dynElemsList, kindSchema_arrays k,
        kindSchema_arraysList ks]

end

mutual

theorem containsDynT_depth : ∀ (k : AbiKind), containsDynT k = true →
    1 ≤ kindDepth k
  | .tuple ks, h => by
      simp only [containsDynT] at h
      simpa [kindDepth] using containsDynListT_depth ks h
  | .fixedArray n k, h => by
      simp only [containsDynT, Bool.and_eq_true, decide_eq_true_eq] at h
      have hk := containsDynT_depth k h.2
      simp only [kindDepth, if_neg h.1]
      exact hk
  | .array k, _ => by simp [kindDepth]
  | .int _, h => by simp [containsDynT] at h
  | .uint _, h => by simp [containsDynT] at h
  | .address, h => by simp [containsDynT] at h
  | .bool, h => by simp [containsDynT] at h
  | .fixedBytes _, h => by simp [containsDynT] at h
  | .function, h => by simp [containsDynT] at h
  | .bytes, h => by simp [containsDynT] at h
  | .string, h => by simp [containsDynT] at h

theorem containsDynListT_depth : ∀ (ks : List AbiKind),
    containsDynListT ks = true → 1 ≤ kindDepthList ks
  | [], h => by simp [containsDynListT] at h
  | k :: ks, h => by
      simp only [containsDynListT, Bool.or_eq_true] at h
      rcases h with h | h
      · have := containsDynT_depth k h
        simp only [kindDepthList]
        omega
      · have := containsDynListT_depth ks h
        simp only [kindDepthList]
        omega

end

mutual

theorem containsNestedDynT_depth : ∀ (k : AbiKind), containsNestedDynT k = true →
    2 ≤ kindDepth k
  | .tuple ks, h => by
      simp only [containsNestedDynT] at h
      simpa [kindDepth] using containsNestedDynListT_depth ks h
  | .fixedArray n k, h => by
      simp only [containsNestedDynT, Bool.and_eq_true, decide_eq_true_eq] at h
      have hk := containsNestedDynT_depth k h.2
      simp only [kindDepth, if_neg h.1]
      exact hk
  | .array k, h => by
      simp only [containsNestedDynT, Bool.or_eq_true] at h
      rcases h with h | h
      · have := containsDynT_depth k h
        simp only [kindDepth]
        omega
      · have := containsNestedDynT_depth k h
        simp only [kindDepth]
        omega
  | .int _, h => by simp [containsNestedDynT] at h
  | .uint _, h => by simp [containsNestedDynT] at h
  | .address, h => by simp [containsNestedDynT] at h
  | .bool, h => by simp [containsNestedDynT] at h
  | .fixedBytes _, h => by simp [containsNestedDynT] at h
  | .function, h => by simp [containsNestedDynT] at h
  | .bytes, h => by simp [containsNestedDynT] at h
  | .string, h => by simp [containsNestedDynT] at h

theorem containsNestedDynListT_depth : ∀ (ks : List AbiKind),
    containsNestedDynListT ks = true → 2 ≤ kindDepthList ks
  | [], h => by simp [containsNestedDynListT] at h
  | k :: ks, h => by
      simp only [containsNestedDynListT, Bool.or_eq_true] at h
      rcases h with h | h
      · have := containsNestedDynT_depth k h
        simp only [kindDepthList]
        omega
      · have := containsNestedDynListT_depth ks h
        simp only [kindDepthList]
        omega

end

theorem containsNestedDynListT_mem (ks : List AbiKind)
    (h : containsNestedDynListT ks = true) :
    ∃ k ∈ ks, containsNestedDynT k = true := by
  induction ks with
  | nil => simp [containsNestedDynListT] at h
  | cons k ks ih =>
    simp only [containsNestedDynListT, Bool.or_eq_true] at h
    rcases h with h | h
    · exact ⟨k, by simp, h⟩
    · rcases ih h with ⟨k2, hk2, h2⟩
      exact ⟨k2, by simp [hk2], h2⟩

mutual

theorem valueDepth_le : ∀ (v : AbiValue) (k : AbiKind), matchesKind v k = true →
    valueDepth v ≤ kindDepth k
  | .int _ _, _, _ => Nat.zero_le _
  | .uint _ _, _, _ => Nat.zero_le _
  | .address _, _, _ => Nat.zero_le _
  | .bool _, _, _ => Nat.zero_le _
  | .fixedBytes _, _, _ => Nat.zero_le _
  | .function _ _, _, _ => Nat.zero_le _
  | .bytes _, _, _ => Nat.zero_le _
  | .string _, _, _ => Nat.zero_le _
  | .tuple vs, k, h => by
      cases k <;> simp only [matchesKind, Bool.false_eq_true] at h
      simpa [valueDepth, kindDepth] using valueDepth_le_list vs _ h
  | .fixedArray ek vs, k, h => by
      cases k <;>
        simp only [matchesKind, Bool.and_eq_true, decide_eq_true_eq,
          beq_iff_eq, Bool.false_eq_true] at h
      rename_i n k2
      obtain ⟨⟨hek, hlen⟩, hall⟩ := h
      have hd := valueDepth_le_all vs k2 hall
      simp only [valueDepth, kindDepth]
      by_cases hn : n = 0
      · have : vs = [] := List.length_eq_zero.mp (by rw [hlen, hn])
        subst this
        simp [valueDepthList]
      · rw [if_neg hn]
        exact hd
  | .array ek vs, k, h => by
      cases k <;>
        simp only [matchesKind, Bool.and_eq_true, decide_eq_true_eq,
          Bool.false_eq_true] at h
      rename_i k2
      have hd := valueDepth_le_all vs k2 h.2
      simp only [valueDepth, kindDepth]
      omega

theorem valueDepth_le_list : ∀ (vs : List AbiValue) (ks : List AbiKind),
    matchesKindList vs ks = true → valueDepthList vs ≤ kindDepthList ks
  | [], ks, _ => Nat.zero_le _
  | v :: vs, ks, h => by
      cases ks <;> simp only [matchesKindList, Bool.and_eq_true,
        Bool.false_eq_true] at h
      rename_i k ks2
      have h1 := valueDepth_le v k h.1
      have h2 := valueDepth_le_list vs ks2 h.2
      simp only [valueDepthList, kindDepthList]
      omega

theorem valueDepth_le_all : ∀ (vs : List AbiValue) (k : AbiKind),
    matchesKindAll vs k = true → valueDepthList vs ≤ kindDepth k
  | [], _, _ => Nat.zero_le _
  | v :: vs, k, h => by
      simp only [matchesKindAll, Bool.and_eq_true] at h
      have h1 := valueDepth_le v k h.1
      have h2 := valueDepth_le_all vs k h.2
      simp only [valueDepthList]
      omega

end

mutual

theorem encMatch : ∀ (v : AbiValue) (k : AbiKind), matchesKind v k = true →
    (valueEnc v).1.length = (kindSchema k).1.length ∧
      List.Forall₂ (fun g cols => g.2.length = g.1 * cols.length)
        (valueEnc v).2 (kindSchema k).2
  | .int _ _, k, h => by
      cases k <;> simp only [matchesKind, Bool.false_eq_true, beq_iff_eq] at h <;>
        simp [valueEnc, kindSchema, encodeLeaf]
  | .uint _ _, k, h => by
      cases k <;> simp only [matchesKind, Bool.false_eq_true, beq_iff_eq] at h <;>
        simp [valueEnc, kindSchema, encodeLeaf]
  | .address _, k, h => by
      cases k <;> simp only [matchesKind, Bool.false_eq_true, beq_iff_eq] at h <;>
        simp [valueEnc, kindSchema, encodeLeaf]
  | .bool _, k, h => by
      cases k <;> simp only [matchesKind, Bool.false_eq_true, beq_iff_eq] at h <;>
        simp [valueEnc, kindSchema, encodeLeaf]
  | .fixedBytes _, k, h => by
      cases k <;> simp only [matchesKind, Bool.false_eq_true, beq_iff_eq] at h <;>
        simp [valueEnc, kindSchema, encodeLeaf]
  | .function _ _, k, h => by
      cases k <;> simp only [matchesKind, Bool.false_eq_true, Bool.and_eq_true,
        beq_iff_eq] at h <;> simp [valueEnc, kindSchema, encodeLeaf]
  | .bytes _, k, h => by
      cases k <;> simp only [matchesKind, Bool.false_eq_true, beq_iff_eq] at h <;>
        simp [valueEnc, kindSchema, encodeLeaf]
  | .string _, k, h => by
      cases k <;> simp only [matchesKind, Bool.false_eq_true, beq_iff_eq] at h <;>
        simp [valueEnc, kindSchema, encodeLeaf]
  | .tuple vs, k, h => by
      cases k <;> simp only [matchesKind, Bool.false_eq_true] at h
      simpa [valueEnc, kindSchema] using encMatchList vs _ h
  | .fixedArray ek vs, k, h => by
      cases k <;>
        simp only [matchesKind, Bool.and_eq_true, decide_eq_true_eq,
          beq_iff_eq, Bool.false_eq_true] at h
      rename_i n k2
      obtain ⟨⟨hek, hlen⟩, hall⟩ := h
      obtain ⟨hl, hf⟩ := encMatchAll vs k2 hall
      constructor
      · simp only [valueEnc, kindSchema, eventsRep_length]
        rw [hl, hlen]
      · simp only [valueEnc, kindSchema]
        rw [← hlen]
        exact hf
  | .array ek vs, k, h => by
      cases k <;>
        simp only [matchesKind, Bool.and_eq_true, decide_eq_true_eq,
          Bool.false_eq_true] at h
      rename_i k2
      obtain ⟨hl, _⟩ := encMatchAll vs k2 h.2
      refine ⟨by simp [valueEnc, kindSchema], ?_⟩
      simp only [valueEnc, kindSchema]
      exact List.Forall₂.cons hl List.Forall₂.nil

theorem encMatchList : ∀ (vs : List AbiValue) (ks : List AbiKind),
    matchesKindList vs ks = true →
    (valueEncList vs).1.length = (kindSchemaList ks).1.length ∧
      List.Forall₂ (fun g cols => g.2.length = g.1 * cols.length)
        (valueEncList vs).2 (kindSchemaList ks).2
  | [], ks, h => by
      cases ks <;> simp only [matchesKindList, Bool.false_eq_true] at h ⊢
      simp [valueEncList, kindSchemaList]
  | v :: vs, ks, h => by
      cases ks <;> simp only [matchesKindList, Bool.and_eq_true,
        Bool.false_eq_true] at h
      rename_i k ks2
      obtain ⟨h1l, h1f⟩ := encMatch v k h.1
      obtain ⟨h2l, h2f⟩ := encMatchList vs ks2 h.2
      constructor
      · simp [valueEncList, kindSchemaList, h1l, h2l]
      · simpa [valueEncList, kindSchemaList] using List.rel_append h1f h2f

theorem encMatchAll : ∀ (vs : List AbiValue) (k : AbiKind),
    matchesKindAll vs k = true →
    (valueEncList vs).1.length = vs.length * (kindSchema k).1.length ∧
      List.Forall₂ (fun g cols => g.2.length = g.1 * cols.length)
        (valueEncList vs).2 (eventsRep vs.length (kindSchema k).2)
  | [], _, _ => by simp [valueEncList, eventsRep]
  | v :: vs, k, h => by
      simp only [matchesKindAll, Bool.and_eq_true] at h
      obtain ⟨h1l, h1f⟩ := encMatch v k h.1
      obtain ⟨h2l, h2f⟩ := encMatchAll vs k h.2
      constructor
      · simp only [valueEncList, List.length_append, List.length_cons, h1l, h2l]
        ring
      · simp only [valueEncList, List.length_cons, eventsRep]
        exact List.rel_append h1f h2f

end

mutual

theorem storeFoldFlat : ∀ (v : AbiValue), valueDepth v = 0 →
    ∀ (svs : List (Option Nat × List SqlValue)) (b : Bool), svs ≠ [] →
      (visitValue v).foldl storeStep (svs, b) =
        (pushCells svs (if b then svs.length - 1 else 0) (valueEnc v).1, b)
  | .int _ _, _, svs, b, _ => by
      simp [visitValue, storeStep, encodeLeaf, pushCells, valueEnc]
  | .uint _ _, _, svs, b, _ => by
      simp [visitValue, storeStep, encodeLeaf, pushCells, valueEnc]
  | .address _, _, svs, b, _ => by
      simp [visitValue, storeStep, encodeLeaf, pushCells, valueEnc]
  | .bool _, _, svs, b, _ => by
      simp [visitValue, storeStep, encodeLeaf, pushCells, valueEnc]
  | .fixedBytes _, _, svs, b, _ => by
      simp [visitValue, storeStep, encodeLeaf, pushCells, valueEnc]
  | .function _ _, _, svs, b, _ => by
      simp [visitValue, storeStep, encodeLeaf, pushCells, valueEnc]
  | .bytes _, _, svs, b, _ => by
      simp [visitValue, storeStep, encodeLeaf, pushCells, valueEnc]
  | .string _, _, svs, b, _ => by
      simp [visitValue, storeStep, encodeLeaf, pushCells, valueEnc]
  | .tuple vs, h, svs, b, hne => by
      have hvs : valueDepthList vs = 0 := by simpa [valueDepth] using h
      simpa [visitValue, valueEnc] using storeFoldFlatList vs hvs svs b hne
  | .fixedArray ek vs, h, svs, b, hne => by
      have hvs : valueDepthList vs = 0 := by simpa [valueDepth] using h
      simpa [visitValue, valueEnc] using storeFoldFlatList vs hvs svs b hne
  | .array ek vs, h, svs, b, hne => by
      simp [valueDepth] at h

theorem storeFoldFlatList : ∀ (vs : List AbiValue), valueDepthList vs = 0 →
    ∀ (svs : List (Option Nat × List SqlValue)) (b : Bool), svs ≠ [] →
      (visitValueList vs).foldl storeStep (svs, b) =
        (pushCells svs (if b then svs.length - 1 else 0) (valueEncList vs).1, b)
  | [], _, svs, b, hne => by
      have hpos := List.length_pos.mpr hne
      have hlt : (if b then svs.length - 1 else 0) < svs.length := by
        cases b <;> simp <;> omega
      simp [visitValueList, valueEncList, pushCells_nil svs _ hlt]
  | v :: vs, h, svs, b, hne => by
      have hv : valueDepth v = 0 := by
        simp only [valueDepthList, Nat.max_eq_zero_iff] at h; exact h.1
      have hvs : valueDepthList vs = 0 := by
        simp only [valueDepthList, Nat.max_eq_zero_iff] at h; exact h.2
      have hpos := List.length_pos.mpr hne
      have hlt : (if b then svs.length - 1 else 0) < svs.length := by
        cases b <;> simp <;> omega
      have h1 := storeFoldFlat v hv svs b hne
      have h2 := storeFoldFlatList vs hvs
        (pushCells svs (if b then svs.length - 1 else 0) (valueEnc v).1) b
        (by
          intro hc
          apply hne
          have := congrArg List.length hc
          rw [pushCells_length] at this
          exact List.length_eq_zero.mp this)
      simp only [visitValueList, List.foldl_append, valueEncList]
      rw [h1, h2, pushCells_length, pushCells_append svs _ _ _ hlt]

end

mutual

theorem storeFold : ∀ (v : AbiValue), valueDepth v ≤ 1 →
    ∀ (g0 : Option Nat × List SqlValue) (rest : List (Option Nat × List SqlValue)),
      (visitValue v).foldl storeStep (g0 :: rest, false) =
        ((g0.1, g0.2 ++ (valueEnc v).1) ::
          (rest ++ (valueEnc v).2.map (fun p => (some p.1, p.2))), false)
  | .int _ _, _, g0, rest => by
      simp [visitValue, storeStep, encodeLeaf, valueEnc, List.getD]
  | .uint _ _, _, g0, rest => by
      simp [visitValue, storeStep, encodeLeaf, valueEnc, List.getD]
  | .address _, _, g0, rest => by
      simp [visitValue, storeStep, encodeLeaf, valueEnc, List.getD]
  | .bool _, _, g0, rest => by
      simp [visitValue, storeStep, encodeLeaf, valueEnc, List.getD]
  | .fixedBytes _, _, g0, rest => by
      simp [visitValue, storeStep, encodeLeaf, valueEnc, List.getD]
  | .function _ _, _, g0, rest => by
      simp [visitValue, storeStep, encodeLeaf, valueEnc, List.getD]
  | .bytes _, _, g0, rest => by
      simp [visitValue, storeStep, encodeLeaf, valueEnc, List.getD]
  | .string _, _, g0, rest => by
      simp [visitValue, storeStep, encodeLeaf, valueEnc, List.getD]
  | .tuple vs, h, g0, rest => by
      have hvs : valueDepthList vs ≤ 1 := by simpa [valueDepth] using h
      simpa [visitValue, valueEnc] using storeFoldList vs hvs g0 rest
  | .fixedArray ek vs, h, g0, rest => by
      have hvs : valueDepthList vs ≤ 1 := by simpa [valueDepth] using h
      simpa [visitValue, valueEnc] using storeFoldList vs hvs g0 rest
  | .array ek vs, h, g0, rest => by
      have hvs : valueDepthList vs = 0 := by
        simp only [valueDepth] at h; omega
      have hne : g0 :: (rest ++ [((some vs.length : Option Nat), ([] : List SqlValue))]) ≠ [] := by
        simp
      have h2 := storeFoldFlatList vs hvs
        (g0 :: (rest ++ [(some vs.length, [])])) true hne
      have hlast := pushCells_last (g0 :: rest) (some vs.length, [])
        (valueEncList vs).1
      simp only [List.cons_append, List.length_cons] at hlast
      simp only [List.length_cons, List.length_append, List.length_singleton,
        List.length_nil, Nat.zero_add, if_true] at h2
      rw [Nat.add_sub_cancel] at h2
      rw [hlast] at h2
      simp only [visitValue, List.foldl_cons, List.foldl_append, List.foldl_nil,
        storeStep, List.cons_append]
      rw [h2]
      simp [valueEnc, storeStep]

theorem storeFoldList : ∀ (vs : List AbiValue), valueDepthList vs ≤ 1 →
    ∀ (g0 : Option Nat × List SqlValue) (rest : List (Option Nat × List SqlValue)),
      (visitValueList vs).foldl storeStep (g0 :: rest, false) =
        ((g0.1, g0.2 ++ (valueEncList vs).1) ::
          (rest ++ (valueEncList vs).2.map (fun p => (some p.1, p.2))), false)
  | [], _, g0, rest => by simp [visitValueList, valueEncList]
  | v :: vs, h, g0, rest => by
      have hv : valueDepth v ≤ 1 := by
        simp only [valueDepthList, Nat.max_le] at h; exact h.1
      have hvs : valueDepthList vs ≤ 1 := by
        simp only [valueDepthList, Nat.max_le] at h; exact h.2
      have h1 := storeFold v hv g0 rest
      have h2 := storeFoldList vs hvs (g0.1, g0.2 ++ (valueEnc v).1)
        (rest ++ (valueEnc v).2.map (fun p => (some p.1, p.2)))
      simp only [visitValueList, List.foldl_append, valueEncList]
      rw [h1, h2]
      simp [List.append_assoc, List.map_append]

end

theorem flatMap_visitValue (fields : List AbiValue) :
    fields.flatMap visitValue = visitValueList fields := by
  induction fields with
  | nil => simp [visitValueList]
  | cons v vs ih => simp [visitValueList, ih]

theorem matchesList_depth (vs : List AbiValue) (ks : List AbiKind)
    (h : matchesKindList vs ks = true) (hk : ∀ k ∈ ks, kindDepth k ≤ 1) :
    valueDepthList vs ≤ 1 := by
  induction vs generalizing ks with
  | nil => simp [valueDepthList]
  | cons v vs ih =>
    cases ks <;> simp only [matchesKindList, Bool.and_eq_true,
      Bool.false_eq_true] at h
    rename_i k ks2
    have h1 := Nat.le_trans (valueDepth_le v k h.1) (hk k (by simp))
    have h2 := ih ks2 h.2 (fun k2 hk2 => hk k2 (by simp [hk2]))
    simp only [valueDepthList]
    omega

theorem storeSqlValues_eq (fields : List AbiValue)
    (h : valueDepthList fields ≤ 1) :
    storeSqlValues fields =
      ((none : Option Nat), (valueEncList fields).1) ::
        (valueEncList fields).2.map (fun p => (some p.1, p.2)) := by
  unfold storeSqlValues
  rw [flatMap_visitValue]
  have hf := storeFoldList fields h (none, []) []
  rw [hf]
  simp

theorem zipAssert (svs : List (Option Nat × List SqlValue)) (tables : List Table)
    (h : List.Forall₂ (fun g t => g.2.length = t.columns.length * g.1.getD 1)
      svs tables) :
    ∀ p ∈ (tables.map (fun t => InsertStatement.mk t.columns.length)).zip svs,
      p.1.fields * p.2.1.getD 1 = p.2.2.length := by
  induction h with
  | nil => simp
  | cons hr hrest ih =>
    intro p hp
    simp only [List.map_cons, List.zip_cons_cons, List.mem_cons] at hp
    rcases hp with hp | hp
    · subst hp
      simpa using hr.symm
    · exact ih p hp

/-- **C1.**  For every event descriptor accepted by schema compilation and
every log whose fields conform to the descriptor's kinds, the depth-first
value traversal of `store_event` produces one accumulator group per table
of the compiled schema, in the same order: the root group (group 0)
carries no element count and exactly (table 0's column count) cells, and
every further group carries the corresponding dynamic array's element
count `n` and exactly (that table's column count) · `n` cells — which is
precisely the equation `assert_eq!(statement.fields * array_element_count,
values.len())` checked by the value encoder for the insert statements
built by `prepare_event`, so that internal consistency check never
fires. -/
theorem C1_traversal_alignment (ed : EventDescriptor) (tables : List Table)
    (fields : List AbiValue)
    (hok : event_to_tables ed = .ok tables)
    (hm : matchesKindList fields (fieldKinds ed) = true) :
    (storeSqlValues fields).length = tables.length ∧
      ((storeSqlValues fields).headD (none, [])).1 = none ∧
      (∀ g ∈ (storeSqlValues fields).tail, g.1.isSome = true) ∧
      List.Forall₂ (fun g t => g.2.length = t.columns.length * g.1.getD 1)
        (storeSqlValues fields) tables ∧
      (∀ p ∈ (tables.map (fun t => InsertStatement.mk t.columns.length)).zip
          (storeSqlValues fields),
        p.1.fields * p.2.1.getD 1 = p.2.2.length) := by
  have hdepth := event_to_tables_depth ed tables hok
  have htbl : tables =
      ⟨(kindSchemaList (fieldKinds ed)).1⟩ ::
        (kindSchemaList (fieldKinds ed)).2.map Table.mk := by
    have := event_to_tables_ok ed hdepth
    rw [this] at hok
    exact (Except.ok.inj hok).symm
  have hvd := matchesList_depth fields (fieldKinds ed) hm hdepth
  have hsvs := storeSqlValues_eq fields hvd
  obtain ⟨hl, hf⟩ := encMatchList fields (fieldKinds ed) hm
  have hlen2 := List.Forall₂.length_eq hf
  have hfa : List.Forall₂ (fun g t => g.2.length = t.columns.length * g.1.getD 1)
      (storeSqlValues fields) tables := by
    rw [hsvs, htbl]
    refine List.Forall₂.cons (by simpa using hl) ?_
    rw [List.forall₂_map_left_iff, List.forall₂_map_right_iff]
    refine hf.imp ?_
    intro g cols hr
    simpa [Nat.mul_comm] using hr
  refine ⟨?_, ?_, ?_, hfa, zipAssert _ _ hfa⟩
  · rw [hsvs, htbl]
    simp [hlen2]
  · rw [hsvs]
    rfl
  · rw [hsvs]
    intro g hg
    simp only [List.tail_cons, List.mem_map] at hg
    rcases hg with ⟨p, _, hp⟩
    rw [← hp]
    rfl

/-- A concrete descriptor used by the witnesses: fields
`[Bool, (Bool, String)[]]` — the spec's §8 scenario. -/
def edWitness : EventDescriptor :=
  ⟨"ev", [⟨⟨"flag", .bool⟩, false⟩,
    ⟨⟨"items", .array (.tuple [.bool, .string])⟩, false⟩], false⟩

/-- Concrete matching field values for `edWitness`: the dynamic array
holds 2 tuples. -/
def fieldsWitness : List AbiValue :=
  [.bool true,
    .array (.tuple [.bool, .string])
      [.tuple [.bool false, .string "hello"],
        .tuple [.bool true, .string "world"]]]

theorem C1_traversal_alignment_witness :
    event_to_tables edWitness =
        .ok ([⟨[.integer]⟩, ⟨[.integer, .blob]⟩] : List Table) ∧
      matchesKindList fieldsWitness (fieldKinds edWitness) = true ∧
      ((storeSqlValues fieldsWitness).length = 2 ∧
        ((storeSqlValues fieldsWitness).headD (none, [])).1 = none ∧
        (∀ g ∈ (storeSqlValues fieldsWitness).tail, g.1.isSome = true) ∧
        List.Forall₂ (fun g t => g.2.length = t.columns.length * g.1.getD 1)
          (storeSqlValues fieldsWitness)
          ([⟨[.integer]⟩, ⟨[.integer, .blob]⟩] : List Table)) := by
  refine ⟨by decide, by decide, ?_⟩
  have := C1_traversal_alignment edWitness
    ([⟨[.integer]⟩, ⟨[.integer, .blob]⟩] : List Table)
    fieldsWitness (by decide) (by decide)
  exact ⟨this.1, this.2.1, this.2.2.1, this.2.2.2.1⟩

/-- **C2.**  For every event descriptor in which no field's kind tree
exceeds one level of dynamic-array nesting (traversal depth at most 1),
`event_to_tables` succeeds with exactly `1 + (number of dynamic-array
occurrences encountered in declaration order)` tables; table 0's column
count equals the total number of flattened scalar leaves outside any
dynamic array (tuples and fixed arrays flatten in declaration order, a
fixed array of size `s` multiplying the count by `s`), and each array
table's columns are exactly the flattened scalar leaf columns of that
dynamic array's element type. -/
theorem C2_schema_shape (ed : EventDescriptor)
    (h : ∀ k ∈ fieldKinds ed, kindDepth k ≤ 1) :
    ∃ tbls, event_to_tables ed = .ok tbls ∧
      tbls.length = 1 + (dynElemsList (fieldKinds ed)).length ∧
      (tbls.headD ⟨[]⟩).columns.length = scalarLeafCountList (fieldKinds ed) ∧
      tbls.tail = (dynElemsList (fieldKinds ed)).map
        (fun ek => (⟨(kindSchema ek).1⟩ : Table)) := by
  refine ⟨_, event_to_tables_ok ed h, ?_, ?_, ?_⟩
  · simp [kindSchema_arraysList, Nat.add_comm]
  · simp [kindSchema_len1List]
  · simp [kindSchema_arraysList]

theorem C2_schema_shape_witness :
    (∀ k ∈ fieldKinds edWitness, kindDepth k ≤ 1) ∧
      ∃ tbls, event_to_tables edWitness = .ok tbls ∧
        tbls.length = 1 + (dynElemsList (fieldKinds edWitness)).length ∧
        (tbls.headD ⟨[]⟩).columns.length =
          scalarLeafCountList (fieldKinds edWitness) ∧
        tbls.tail = (dynElemsList (fieldKinds edWitness)).map
          (fun ek => (⟨(kindSchema ek).1⟩ : Table)) :=
  ⟨by decide, C2_schema_shape edWitness (by decide)⟩

/-- A descriptor whose single field syntactically nests a dynamic array
inside another dynamic array, but through a fixed array of size 0, which
the traversal never visits. -/
def edNestedHidden : EventDescriptor :=
  ⟨"ev", [⟨⟨"f", .array (.fixedArray 0 (.array .bool))⟩, false⟩], false⟩

/-- **C3** (counterexample).  A field kind that contains a dynamic array
nested — through a fixed array — inside another dynamic array, for which
`event_to_tables` nevertheless succeeds: a fixed array of size 0 hides its
element type from the level-counting traversal, so the nested dynamic
array is not detected and two tables are produced. -/
theorem C3_counterexample :
    containsNestedDynList (fieldKinds edNestedHidden) = true ∧
      event_to_tables edNestedHidden =
        .ok ([⟨[]⟩, ⟨[]⟩] : List Table) := by
  exact ⟨by decide, by decide⟩

/-- **C3** (amended).  For every event descriptor in which some field's
kind tree contains a dynamic array nested inside another dynamic array
directly, or through tuples or fixed arrays of nonzero size (so that the
nesting is actually encountered by the element-wise traversal),
`event_to_tables` fails with the nested-dynamic-arrays error and produces
no tables. -/
theorem C3_nested_rejected (ed : EventDescriptor)
    (h : containsNestedDynListT (fieldKinds ed) = true) :
    event_to_tables ed = .error .nestedDynamicArrays := by
  rcases containsNestedDynListT_mem _ h with ⟨k, hk, hnk⟩
  refine event_to_tables_error ed ⟨k, hk, ?_⟩
  have := containsNestedDynT_depth k hnk
  omega

/-- A descriptor whose single field is a dynamic array of dynamic
arrays. -/
def edNested : EventDescriptor :=
  ⟨"ev", [⟨⟨"f", .array (.array .bool)⟩, false⟩], false⟩

theorem C3_nested_rejected_witness :
    containsNestedDynListT (fieldKinds edNested) = true ∧
      event_to_tables edNested = .error .nestedDynamicArrays :=
  ⟨by decide, C3_nested_rejected edNested (by decide)⟩

theorem beBytes_length (w v : Nat) : (beBytes w v).length = w := by
  induction w generalizing v with
  | zero => simp [beBytes]
  | succ w ih => simp [beBytes, ih]

theorem beBytes_inj (w : Nat) : ∀ x y : Nat, x < 256 ^ w → y < 256 ^ w →
    beBytes w x = beBytes w y → x = y := by
  induction w with
  | zero =>
    intro x y hx hy _
    simp only [Nat.pow_zero, Nat.lt_one_iff] at hx hy
    rw [hx, hy]
  | succ w ih =>
    intro x y hx hy h
    simp only [beBytes] at h
    have hlen : (beBytes w (x / 256)).length = (beBytes w (y / 256)).length := by
      simp [beBytes_length]
    obtain ⟨h1, h2⟩ := List.append_inj h hlen
    have hm : x % 256 = y % 256 := by
      simpa using h2
    have hdx : x / 256 < 256 ^ w := by
      rw [Nat.div_lt_iff_lt_mul (by norm_num)]
      calc x < 256 ^ (w + 1) := hx
        _ = 256 ^ w * 256 := by ring
    have hdy : y / 256 < 256 ^ w := by
      rw [Nat.div_lt_iff_lt_mul (by norm_num)]
      calc y < 256 ^ (w + 1) := hy
        _ = 256 ^ w * 256 := by ring
    have hd := ih (x / 256) (y / 256) hdx hdy h1
    omega

/-- **C4.**  The schema compiler assigns physical type Integer to `Bool`
and Blob to every other scalar kind, and the value encoder encodes each
leaf into the matching physical cell: 256-bit signed and unsigned
integers as 32 big-endian bytes (two's complement, hence sign-preserving
and injective on the 256-bit range), addresses as their raw 20 bytes,
booleans as integer 0/1, fixed byte strings and dynamic bytes as raw
bytes, function references as the 20-byte address followed by the 4-byte
selector, and strings as their UTF-8 bytes.  For every value conforming
to a kind, the encoded cell's physical type equals the schema compiler's
type for that kind. -/
theorem C4_physical_encoding :
    ((∀ w, leafSqlType (.int w) = some .blob) ∧
      (∀ w, leafSqlType (.uint w) = some .blob) ∧
      leafSqlType .address = some .blob ∧
      leafSqlType .bool = some .integer ∧
      (∀ n, leafSqlType (.fixedBytes n) = some .blob) ∧
      leafSqlType .function = some .blob ∧
      leafSqlType .bytes = some .blob ∧
      leafSqlType .string = some .blob) ∧
    ((∀ w v, encodeLeaf (.int w v) =
        some (.blob (beBytes 32 (v % (2 ^ 256 : Nat)).toNat))) ∧
      (∀ w v, encodeLeaf (.uint w v) = some (.blob (beBytes 32 v))) ∧
      (∀ bs, encodeLeaf (.address bs) = some (.blob bs)) ∧
      (∀ b, encodeLeaf (.bool b) = some (.integer (if b then 1 else 0))) ∧
      (∀ bs, encodeLeaf (.fixedBytes bs) = some (.blob bs)) ∧
      (∀ a s, encodeLeaf (.function a s) = some (.blob (a ++ s))) ∧
      (∀ bs, encodeLeaf (.bytes bs) = some (.blob bs)) ∧
      (∀ s, encodeLeaf (.string s) = some (.blob (utf8Bytes s)))) ∧
    (∀ (v : AbiValue) (k : AbiKind), matchesKind v k = true →
      Option.map SqlValue.sqlType (encodeLeaf v) = leafSqlType k) ∧
    (∀ v v2 : Int, -(2 ^ 255) ≤ v → v < 2 ^ 255 → -(2 ^ 255) ≤ v2 →
      v2 < 2 ^ 255 →
      beBytes 32 (v % (2 ^ 256 : Nat)).toNat =
        beBytes 32 (v2 % (2 ^ 256 : Nat)).toNat → v = v2) := by
  refine ⟨⟨fun _ => rfl, fun _ => rfl, rfl, rfl, fun _ => rfl, rfl, rfl, rfl⟩,
    ⟨fun _ _ => rfl, fun _ _ => rfl, fun _ => rfl, fun _ => rfl, fun _ => rfl,
      fun _ _ => rfl, fun _ => rfl, fun _ => rfl⟩, ?_, ?_⟩
  · intro v k hm
    cases v <;> cases k <;>
      simp only [matchesKind, Bool.false_eq_true, Bool.and_eq_true,
        beq_iff_eq, decide_eq_true_eq] at hm <;>
      simp [encodeLeaf, leafSqlType, SqlValue.sqlType]
  · intro v v2 h1 h2 h3 h4 h
    have hx : (v % (2 ^ 256 : Nat)).toNat < 256 ^ 32 := by
      have : ((2 : Int) ^ 256) = ((2 ^ 256 : Nat) : Int) := by norm_num
      have hlt := Int.emod_lt_of_pos v
        (b := ((2 ^ 256 : Nat) : Int)) (by positivity)
      have hnn := Int.emod_nonneg v
        (b := ((2 ^ 256 : Nat) : Int)) (by positivity)
      omega
    have hy : (v2 % (2 ^ 256 : Nat)).toNat < 256 ^ 32 := by
      have hlt := Int.emod_lt_of_pos v2
        (b := ((2 ^ 256 : Nat) : Int)) (by positivity)
      have hnn := Int.emod_nonneg v2
        (b := ((2 ^ 256 : Nat) : Int)) (by positivity)
      omega
    have := beBytes_inj 32 _ _ hx hy h
    omega

theorem C4_physical_encoding_witness :
    matchesKind (.bool true) .bool = true ∧
      Option.map SqlValue.sqlType (encodeLeaf (.bool true)) =
        leafSqlType .bool :=
  ⟨by decide, C4_physical_encoding.2.2.1 (.bool true) .bool (by decide)⟩

theorem firstKindMismatch_none (ps : List (AbiValue × EventField)) :
    ∀ i, firstKindMismatch i ps = none ↔
      ∀ p ∈ ps, p.1.kind = p.2.field.kind := by
  induction ps with
  | nil => simp [firstKindMismatch]
  | cons p ps ih =>
    intro i
    by_cases hp : p.1.kind = p.2.field.kind
    · simp [firstKindMismatch, hp, ih (i + 1)]
    · simp [firstKindMismatch, hp]

theorem firstKindMismatch_exists (ps : List (AbiValue × EventField))
    (h : ∃ p ∈ ps, p.1.kind ≠ p.2.field.kind) :
    ∀ i, ∃ j, firstKindMismatch i ps = some j := by
  induction ps with
  | nil => simp at h
  | cons p ps ih =>
    intro i
    by_cases hp : p.1.kind = p.2.field.kind
    · have h2 : ∃ q ∈ ps, q.1.kind ≠ q.2.field.kind := by
        rcases h with ⟨q, hq, hne⟩
        rcases List.mem_cons.mp hq with hq | hq
        · exact absurd (hq ▸ hp) hne
        · exact ⟨q, hq, hne⟩
      rcases ih h2 (i + 1) with ⟨j, hj⟩
      exact ⟨j, by simpa [firstKindMismatch, hp] using hj⟩
    · exact ⟨i, by simp [firstKindMismatch, hp]⟩

/-- **C7.**  For every log submitted for a prepared event, `store_event`
fails with a value-mismatch error whenever the field count differs from
the descriptor's field count or some field's runtime kind differs from
the declared kind at its position; these checks precede every insert in
the definition, so the error is returned before any row is written.  When
all fields match, no value-mismatch error occurs. -/
theorem C7_value_mismatch (events : Registry) (db : Db) (log : Log)
    (ev : PreparedEvent)
    (hreg : alGet events (sanitize_name log.event) = some ev) :
    (log.fields.length ≠ ev.descriptor.inputs.length →
      store_event events db log =
        .error (.fieldCount log.fields.length ev.descriptor.inputs.length)) ∧
    (log.fields.length = ev.descriptor.inputs.length →
      (∃ p ∈ log.fields.zip ev.descriptor.inputs,
        p.1.kind ≠ p.2.field.kind) →
      ∃ j, store_event events db log = .error (.fieldKind j)) ∧
    (log.fields.length = ev.descriptor.inputs.length →
      (∀ p ∈ log.fields.zip ev.descriptor.inputs,
        p.1.kind = p.2.field.kind) →
      (∀ n m, store_event events db log ≠ .error (.fieldCount n m)) ∧
        ∀ j, store_event events db log ≠ .error (.fieldKind j)) := by
  refine ⟨?_, ?_, ?_⟩
  · intro hne
    unfold store_event
    simp only [hreg]
    simp [hne]
  · intro hlen hex
    rcases firstKindMismatch_exists _ hex 0 with ⟨j, hj⟩
    refine ⟨j, ?_⟩
    unfold store_event
    simp only [hreg]
    simp [hlen, hj]
  · intro hlen hall
    have hnone := (firstKindMismatch_none (log.fields.zip ev.descriptor.inputs) 0).mpr hall
    have hmain : ∀ e : DbError, store_event events db log ≠ .error e := by
      intro e
      unfold store_event
      simp only [hreg]
      simp only [hlen, ne_eq, not_true_eq_false, if_false, hnone]
      cases hbn : i64OfNat log.block_number <;>
        cases hli : i64OfNat log.log_index <;>
        cases hti : i64OfNat log.transaction_index <;>
        simp only
      all_goals first
        | exact fun hc => Outcome.noConfusion hc
        | skip
      · generalize (ev.insert_statements.zip (storeSqlValues log.fields)) = zs
        generalize db = db0
        generalize (0 : Nat) = idx0
        induction zs generalizing db0 idx0 with
        | nil => exact fun hc => Outcome.noConfusion hc
        | cons z zs ih =>
          simp only [insertGroups]
          split
          · exact fun hc => Outcome.noConfusion hc
          · split
            · exact fun hc => Outcome.noConfusion hc
            · exact ih _ _
    exact ⟨fun n m => hmain _, fun j => hmain _⟩

/-- The prepared form of `edWitness`, exactly as `prepare_event` builds
it. -/
def peWitness : PreparedEvent := ⟨edWitness, [⟨1⟩, ⟨2⟩], [0, 1]⟩

/-- A registry holding `edWitness` under its sanitized name. -/
def regWitness : Registry := [("ev", peWitness)]

/-- A store holding the cursor row and the two (empty) data tables of
`edWitness`. -/
def dbWitness : Db :=
  ⟨[("ev", (0, 0))], [(("ev", 0), []), (("ev", 1), [])]⟩

theorem C7_value_mismatch_witness :
    alGet regWitness (sanitize_name "ev") = some peWitness ∧
      store_event regWitness dbWitness
          ⟨"ev", 1, 0, 0, List.replicate 20 4, []⟩ =
        .error (.fieldCount 0 2) :=
  ⟨by decide,
    (C7_value_mismatch regWitness dbWitness
      ⟨"ev", 1, 0, 0, List.replicate 20 4, []⟩ peWitness (by decide)).1
      (by decide)⟩

/-- A descriptor with no fields, its prepared form, registry and store. -/
def edEmpty : EventDescriptor := ⟨"ev", [], false⟩

def peEmpty : PreparedEvent := ⟨edEmpty, [⟨0⟩], [0]⟩

def regEmpty : Registry := [("ev", peEmpty)]

def dbEmpty : Db := ⟨[("ev", (0, 0))], [(("ev", 0), [])]⟩

/-- **C8.**  A block number that does not fit i64 (`2 ^ 63`) makes
`store_event` panic — the source converts the fixed columns with
`try_into().unwrap()` — instead of returning a RangeError-class error,
while the sibling operations `set_event_blocks` and `remove` convert the
same quantity with `try_into().context(..)` and surface an error to the
caller, as the claim requires of every operation. -/
theorem C8_store_event_panics :
    store_event regEmpty dbEmpty ⟨"ev", 2 ^ 63, 0, 0, List.replicate 20 4, []⟩ =
        .panicked ∧
      set_event_blocks regEmpty dbEmpty [⟨"ev", ⟨2 ^ 63, 0⟩⟩] =
        .error .indexedOutOfBounds ∧
      removeUncle regEmpty dbEmpty ⟨"ev", 2 ^ 63⟩ =
        .error .blockOutOfBounds := by
  refine ⟨by decide, by decide, by decide⟩

theorem map_toAsciiLower_id (l : List Char)
    (h : ∀ c ∈ l, ('A' ≤ c && c ≤ 'Z') = false) :
    l.map toAsciiLower = l := by
  induction l with
  | nil => rfl
  | cons c cs ih =>
    simp only [List.map_cons, List.cons.injEq]
    constructor
    · unfold toAsciiLower
      rw [h c (by simp)]
      simp
    · exact ih (fun c2 hc2 => h c2 (by simp [hc2]))

set_option maxRecDepth 4000 in
theorem keywords_no_upper :
    SQLITE_KEYWORDS.all (fun w => w.data.all (fun c => !('A' ≤ c && c ≤ 'Z'))) =
      true := by decide

set_option maxRecDepth 4000 in
theorem keywords_no_trailing_underscore :
    ∀ w ∈ SQLITE_KEYWORDS, w.data.getLast? ≠ some '_' := by decide

theorem keywords_lower_fixed : ∀ w ∈ SQLITE_KEYWORDS,
    w.data.map toAsciiLower = w.data := by
  intro w hw
  have h := List.all_eq_true.mp keywords_no_upper w hw
  refine map_toAsciiLower_id w.data ?_
  intro c hc
  have h2 := List.all_eq_true.mp h c hc
  by_cases hb : ('A' ≤ c && c ≤ 'Z') = true
  · rw [hb] at h2
    simp at h2
  · simpa using hb

/-- **C9.**  For every input string, `sanitize_name` returns a nonempty
identifier consisting only of ASCII alphanumerics and underscores, whose
first character is an ASCII letter or an underscore, and which differs
from every reserved keyword of the storage engine.  (The function is a
pure function of its argument, hence deterministic; the filter / prepend
/ append steps are its definition.) -/
theorem C9_sanitize (name : String) :
    (sanitize_name name ≠ "" ∧
      (∀ c ∈ (sanitize_name name).data,
        (isAsciiAlphanumeric c || c == '_') = true) ∧
      (isAsciiAlphabetic ((sanitize_name name).data.headD '_') = true ∨
        (sanitize_name name).data.headD '_' = '_')) ∧
    ∀ w ∈ SQLITE_KEYWORDS, sanitize_name name ≠ w := by
  have hfil : ∀ c ∈ name.data.filter (fun c => isAsciiAlphanumeric c || c == '_'),
      (isAsciiAlphanumeric c || c == '_') = true :=
    fun c hc => (List.mem_filter.mp hc).2
  set filtered := name.data.filter (fun c => isAsciiAlphanumeric c || c == '_')
    with hfildef
  set result := if filtered.isEmpty || !isAsciiAlphabetic (filtered.headD '_')
    then '_' :: filtered else filtered with hresdef
  have hchars : ∀ c ∈ result, (isAsciiAlphanumeric c || c == '_') = true := by
    rw [hresdef]
    split
    · intro c hc
      rcases List.mem_cons.mp hc with hc | hc
      · rw [hc]; decide
      · exact hfil c hc
    · exact hfil
  have hne : result ≠ [] := by
    rw [hresdef]
    split
    · simp
    · rename_i hcond
      simp only [Bool.or_eq_true, not_or, Bool.not_eq_true] at hcond
      intro hc
      rw [hc] at hcond
      simp at hcond
  have hhead : isAsciiAlphabetic (result.headD '_') = true ∨
      result.headD '_' = '_' := by
    rw [hresdef]
    split
    · right
      rfl
    · rename_i hcond
      simp only [Bool.or_eq_true, not_or, Bool.not_eq_true] at hcond
      exact Or.inl (by simpa using hcond.2)
  have hs : sanitize_name name =
      String.mk (if SQLITE_KEYWORDS.any
          (fun word => word.data == result.map toAsciiLower)
        then result ++ ['_'] else result) := by
    rw [sanitize_name]
  rw [hs]
  by_cases hkw : SQLITE_KEYWORDS.any
      (fun word => word.data == result.map toAsciiLower) = true
  · rw [if_pos hkw]
    refine ⟨⟨?_, ?_, ?_⟩, ?_⟩
    · simp [String.ext_iff]
    · intro c hc
      rcases List.mem_append.mp hc with hc | hc
      · exact hchars c hc
      · simp only [List.mem_singleton] at hc
        rw [hc]; decide
    · rcases List.exists_cons_of_ne_nil hne with ⟨r, rs, hr⟩
      rw [hr]
      simpa using hhead.imp (fun h => by simpa [hr] using h)
        (fun h => by simpa [hr] using h)
    · intro w hw heq
      have hdata : w.data = result ++ ['_'] := by
        rw [← heq]
      have := keywords_no_trailing_underscore w hw
      rw [hdata, List.getLast?_concat] at this
      exact this rfl
  · rw [if_neg hkw]
    refine ⟨⟨?_, ?_, ?_⟩, ?_⟩
    · simpa [String.ext_iff] using hne
    · exact hchars
    · exact hhead
    · intro w hw heq
      have hdata : result = w.data := by
        rw [← heq]
      apply hkw
      refine List.any_eq_true.mpr ⟨w, hw, ?_⟩
      rw [hdata, keywords_lower_fixed w hw]
      simp

theorem C9_sanitize_witness :
    "select" ∈ SQLITE_KEYWORDS ∧ sanitize_name "sEl-eCt" = "sEleCt_" ∧
      sanitize_name "sEl-eCt" ≠ "select" :=
  ⟨by decide, by decide, (C9_sanitize "sEl-eCt").2 "select" (by decide)⟩

/-- A registry holding the empty-field event under the sanitized form of
the raw name `"1abc"`. -/
def regUnderscore : Registry := [("_1abc", peEmpty)]

def dbUnderscore : Db := ⟨[("_1abc", (0, 0))], [(("_1abc", 0), [])]⟩

/-- **C10.**  Every operation addresses an event by the sanitized form of
the supplied name, so two raw names with equal sanitized forms are
interchangeable in `prepare_event`, `event_block`, `store_event`,
`set_event_blocks` and `remove`.  Because `sanitize_name` is not
idempotent — a name whose sanitized form does not begin with an ASCII
letter gains a further leading underscore when sanitized again — an event
registered under `sanitize_name "1abc" = "_1abc"` is not reachable by
supplying `"_1abc"` itself, which sanitizes to `"__1abc"`. -/
theorem C10_sanitized_addressing :
    (∀ (n1 n2 : String), sanitize_name n1 = sanitize_name n2 →
      ∀ (events : Registry) (db : Db) (d : EventDescriptor)
        (bn li ti : Nat) (addr : List Nat) (fs : List AbiValue)
        (blk : Block) (N : Nat),
        prepare_event events db n1 d = prepare_event events db n2 d ∧
          event_block db n1 = event_block db n2 ∧
          store_event events db ⟨n1, bn, li, ti, addr, fs⟩ =
            store_event events db ⟨n2, bn, li, ti, addr, fs⟩ ∧
          set_event_blocks events db [⟨n1, blk⟩] =
            set_event_blocks events db [⟨n2, blk⟩] ∧
          removeUncle events db ⟨n1, N⟩ = removeUncle events db ⟨n2, N⟩) ∧
    sanitize_name (sanitize_name "1abc") ≠ sanitize_name "1abc" ∧
    alGet regUnderscore (sanitize_name "1abc") = some peEmpty ∧
    store_event regUnderscore dbUnderscore
        ⟨sanitize_name "1abc", 1, 0, 0, List.replicate 20 4, []⟩ =
      .error .unknownEvent := by
  refine ⟨?_, by decide, by decide, by decide⟩
  intro n1 n2 h events db d bn li ti addr fs blk N
  refine ⟨?_, ?_, ?_, ?_, ?_⟩
  · unfold prepare_event
    rw [h]
  · unfold event_block
    rw [h]
  · unfold store_event
    simp only [h]
  · unfold set_event_blocks
    simp only [h]
  · unfold removeUncle
    simp only [h]

theorem find?_put_map {α : Type} (l : List (String × α)) (k : String) (v : α)
    (h : (l.find? (fun x => decide (x.1 = k))).isSome = true) :
    (l.map (fun e => if e.1 = k then (k, v) else e)).find?
      (fun x => decide (x.1 = k)) = some (k, v) := by
  induction l with
  | nil => simp at h
  | cons e l ih =>
    by_cases he : e.1 = k
    · rw [List.map_cons, if_pos he, List.find?_cons_of_pos _ (by simp)]
    · rw [List.find?_cons_of_neg _ (by simp [he])] at h
      rw [List.map_cons, if_neg he, List.find?_cons_of_neg _ (by simp [he])]
      exact ih h

theorem find?_put_append {α : Type} (l : List (String × α)) (k : String) (v : α)
    (h : l.find? (fun x => decide (x.1 = k)) = none) :
    (l ++ [(k, v)]).find? (fun x => decide (x.1 = k)) = some (k, v) := by
  induction l with
  | nil => rw [List.nil_append, List.find?_cons_of_pos _ (by simp)]
  | cons e l ih =>
    have he : ¬ e.1 = k := by
      intro hc
      rw [List.find?_cons_of_pos _ (by simp [hc])] at h
      exact Option.noConfusion h
    rw [List.find?_cons_of_neg _ (by simp [he])] at h
    rw [List.cons_append, List.find?_cons_of_neg _ (by simp [he])]
    exact ih h

theorem alGet_alPut {α : Type} (l : List (String × α)) (k : String) (v : α) :
    alGet (alPut l k v) k = some v := by
  unfold alGet alPut
  by_cases hf : (l.find? (fun x => decide (x.1 = k))).isSome = true
  · rw [if_pos hf, find?_put_map l k v hf]
    rfl
  · rw [if_neg hf]
    have hn : l.find? (fun x => decide (x.1 = k)) = none := by
      cases hx : l.find? (fun x => decide (x.1 = k)) with
      | none => rfl
      | some y => rw [hx] at hf; simp at hf
    rw [find?_put_append l k v hn]
    rfl

/-- **C6.**  `prepare_event` is idempotent: after a successful
registration, calling it again with the identical descriptor succeeds and
leaves both the in-memory registry and the store unchanged, while calling
it for the same name with any differing descriptor fails with an error
(and, the result being an error, changes nothing). -/
theorem C6_prepare_event_idempotent (events : Registry) (db : Db)
    (n : String) (d : EventDescriptor) (events2 : Registry) (db2 : Db)
    (hok : prepare_event events db n d = .ok (events2, db2)) :
    prepare_event events2 db2 n d = .ok (events2, db2) ∧
      ∀ d2, d2 ≠ d → ∃ e, prepare_event events2 db2 n d2 = .error e := by
  have hreg : ∃ pe, alGet events2 (sanitize_name n) = some pe ∧
      pe.descriptor = d ∧
      firstDuplicate []
        (d.inputs.map (fun input => sanitize_name input.field.name)) = none := by
    unfold prepare_event at hok
    rcases hdup : firstDuplicate []
        (d.inputs.map (fun input => sanitize_name input.field.name)) with _ | dup
    · rw [hdup] at hok
      simp only at hok
      rcases hget : alGet events (sanitize_name n) with _ | existing
      · rw [hget] at hok
        simp only at hok
        rcases htbl : event_to_tables d with e | tables
        · rw [htbl] at hok
          exact Except.noConfusion hok
        · rw [htbl] at hok
          simp only [Except.ok.injEq, Prod.mk.injEq] at hok
          refine ⟨⟨d, tables.map (fun t => InsertStatement.mk t.columns.length),
            List.range tables.length⟩, ?_, rfl, hdup⟩
          rw [← hok.1]
          exact alGet_alPut events (sanitize_name n) _
      · rw [hget] at hok
        simp only at hok
        by_cases hd : d = existing.descriptor
        · rw [if_neg (by simp [hd])] at hok
          simp only [Except.ok.injEq, Prod.mk.injEq] at hok
          exact ⟨existing, by rw [← hok.1]; exact hget, hd.symm, hdup⟩
        · rw [if_pos (by simp [hd])] at hok
          exact Except.noConfusion hok
    · rw [hdup] at hok
      exact Except.noConfusion hok
  rcases hreg with ⟨pe, hget2, hdesc, hdup⟩
  constructor
  · unfold prepare_event
    rw [hdup]
    simp only
    rw [hget2]
    simp [hdesc]
  · intro d2 hne
    unfold prepare_event
    rcases hdup2 : firstDuplicate []
        (d2.inputs.map (fun input => sanitize_name input.field.name)) with _ | dup
    · rw [hdup2]
      simp only
      rw [hget2]
      simp only
      rw [if_pos (by rw [hdesc]; exact hne)]
      exact ⟨_, rfl⟩
    · rw [hdup2]
      exact ⟨_, rfl⟩

theorem C6_prepare_event_idempotent_witness :
    prepare_event [] ⟨[], []⟩ "ev" edEmpty = .ok (regEmpty, dbEmpty) ∧
      prepare_event regEmpty dbEmpty "ev" edEmpty = .ok (regEmpty, dbEmpty) ∧
      edWitness ≠ edEmpty ∧
      ∃ e, prepare_event regEmpty dbEmpty "ev" edWitness = .error e := by
  have h := C6_prepare_event_idempotent [] ⟨[], []⟩ "ev" edEmpty regEmpty dbEmpty
    (by decide)
  exact ⟨by decide, h.1, by decide, h.2 edWitness (by decide)⟩

theorem find?_tables_upd (ts : List ((String × Nat) × List Row))
    (name : String) (i j : Nat) (f : List Row → List Row) (hf : f [] = []) :
    (((ts.map (fun e => if e.1 = (name, i) then (e.1, f e.2) else e)).find?
        (fun e => decide (e.1 = (name, j)))).map (fun e => e.2)).getD [] =
      if i = j then
        f ((((ts.find? (fun e => decide (e.1 = (name, j)))).map
          (fun e => e.2)).getD []))
      else
        (((ts.find? (fun e => decide (e.1 = (name, j)))).map
          (fun e => e.2)).getD []) := by
  induction ts with
  | nil =>
    simp only [List.map_nil, List.find?_nil, Option.map_none', Option.getD_none]
    split <;> simp [hf]
  | cons e ts ih =>
    by_cases hejk : e.1 = (name, j)
    · by_cases hij : i = j
      · have heik : e.1 = (name, i) := by rw [hejk, hij]
        rw [List.map_cons, if_pos heik,
          List.find?_cons_of_pos _ (by simp [hejk]),
          List.find?_cons_of_pos _ (by simp [hejk]), if_pos hij]
        rfl
      · have heik : ¬ e.1 = (name, i) := by
          rw [hejk]
          intro hc
          exact hij (by injection hc with h1 h2; rw [h2])
        rw [List.map_cons, if_neg heik,
          List.find?_cons_of_pos _ (by simp [hejk]),
          List.find?_cons_of_pos _ (by simp [hejk]), if_neg hij]
    · by_cases heik : e.1 = (name, i)
      · rw [List.map_cons, if_pos heik,
          List.find?_cons_of_neg _ (by simp [hejk]),
          List.find?_cons_of_neg _ (by simp [hejk])]
        exact ih
      · rw [List.map_cons, if_neg heik,
          List.find?_cons_of_neg _ (by simp [hejk]),
          List.find?_cons_of_neg _ (by simp [hejk])]
        exact ih

theorem rowsOf_updTable (db : Db) (name : String) (i j : Nat)
    (f : List Row → List Row) (hf : f [] = []) :
    (db.updTable name i f).rowsOf name j =
      if i = j then f (db.rowsOf name j) else db.rowsOf name j := by
  unfold Db.updTable Db.rowsOf
  exact find?_tables_upd db.tables name i j f hf

theorem alGet_setIndexed (l : List (String × (Int × Int))) (name : String)
    (parent : Int) :
    alGet (l.map (fun e => if e.1 = name then (e.1, (parent, e.2.2)) else e))
        name =
      (alGet l name).map (fun p => (parent, p.2)) := by
  induction l with
  | nil => simp [alGet]
  | cons e l ih =>
    by_cases he : e.1 = name
    · unfold alGet
      rw [List.map_cons, if_pos he,
        List.find?_cons_of_pos _ (by simp [he]),
        List.find?_cons_of_pos _ (by simp [he])]
      rfl
    · unfold alGet
      rw [List.map_cons, if_neg he,
        List.find?_cons_of_neg _ (by simp [he]),
        List.find?_cons_of_neg _ (by simp [he])]
      exact ih

theorem removeStep_rowsOf (name : String) (block parent : Int) (db : Db)
    (i j : Nat) :
    (removeStep name block parent db i).rowsOf name j =
      if i = j then
        (db.rowsOf name j).filter (fun r => !decide (r.block_number ≥ block))
      else db.rowsOf name j := by
  unfold removeStep
  have h1 : ∀ db2 : Db, ∀ eb,
      (({ db2 with event_block := eb } : Db).rowsOf name j) =
        db2.rowsOf name j := fun _ _ => rfl
  rw [h1]
  exact rowsOf_updTable db name i j _ rfl

theorem removeStep_eventBlock (name : String) (block parent : Int) (db : Db)
    (i : Nat) :
    alGet (removeStep name block parent db i).event_block name =
      (alGet db.event_block name).map (fun p => (parent, p.2)) := by
  unfold removeStep
  have h1 : (db.updTable name i
      (fun rows => rows.filter (fun r => !decide (r.block_number ≥ block)))).event_block =
      db.event_block := rfl
  simp only [h1]
  exact alGet_setIndexed db.event_block name parent

theorem removeFold_rowsOf (name : String) (block parent : Int)
    (is : List Nat) (db : Db) (j : Nat) :
    ((is.foldl (removeStep name block parent) db).rowsOf name j) =
      if j ∈ is then
        (db.rowsOf name j).filter (fun r => !decide (r.block_number ≥ block))
      else db.rowsOf name j := by
  induction is generalizing db with
  | nil => simp
  | cons i is ih =>
    simp only [List.foldl_cons]
    rw [ih, removeStep_rowsOf]
    by_cases hij : i = j
    · simp only [if_pos hij]
      by_cases hj : j ∈ is
      · rw [if_pos hj, if_pos (List.mem_cons.mpr (Or.inr hj)),
          List.filter_filter]
        exact List.filter_congr (fun r _ => by simp)
      · rw [if_neg hj, if_pos (List.mem_cons.mpr (Or.inl hij.symm))]
    · simp only [if_neg hij]
      by_cases hj : j ∈ is
      · rw [if_pos hj, if_pos (List.mem_cons.mpr (Or.inr hj))]
      · rw [if_neg hj, if_neg ?hnm]
        case hnm =>
          intro hc
          rcases List.mem_cons.mp hc with hc | hc
          · exact hij hc.symm
          · exact hj hc

theorem removeFold_eventBlock (name : String) (block parent : Int)
    (is : List Nat) (db : Db) (h : is ≠ []) :
    alGet ((is.foldl (removeStep name block parent) db)).event_block name =
      (alGet db.event_block name).map (fun p => (parent, p.2)) := by
  induction is generalizing db with
  | nil => exact absurd rfl h
  | cons i is ih =>
    simp only [List.foldl_cons]
    cases is with
    | nil =>
      simp only [List.foldl_nil]
      exact removeStep_eventBlock name block parent db i
    | cons i2 is2 =>
      rw [ih (removeStep name block parent db i) (by simp),
        removeStep_eventBlock]
      cases alGet db.event_block name <;> rfl

/-- **C5.**  `remove` with an uncle at block 0 always fails.  For `N ≥ 1`,
for a prepared event (whose range-delete statements cover its `k` tables)
whose cursor row exists, if all stored rows fit i64 and rows exist both
below and at-or-above `N`, then `remove` succeeds, every table of the
event keeps exactly its rows with block number `< N`, the cursor's
indexed value becomes `N - 1`, and the finalized value is unchanged. -/
theorem C5_uncle_removal :
    (∀ (events : Registry) (db : Db) (ename : String),
      remove events db [⟨ename, 0⟩] = .error .block0Uncled) ∧
    (∀ (events : Registry) (db : Db) (ename : String) (N : Nat)
        (prepared : PreparedEvent) (k : Nat) (ix fin : Int),
      alGet events (sanitize_name ename) = some prepared →
      prepared.remove_statements = List.range k →
      0 < k →
      1 ≤ N →
      alGet db.event_block (sanitize_name ename) = some (ix, fin) →
      (∀ i r, r ∈ db.rowsOf (sanitize_name ename) i →
        r.block_number < 2 ^ 63) →
      (∃ i r, i < k ∧ r ∈ db.rowsOf (sanitize_name ename) i ∧
        (N : Int) ≤ r.block_number) →
      (∃ i r, i < k ∧ r ∈ db.rowsOf (sanitize_name ename) i ∧
        r.block_number < (N : Int)) →
      ∃ db2, remove events db [⟨ename, N⟩] = .ok db2 ∧
        (∀ i, i < k →
          db2.rowsOf (sanitize_name ename) i =
            (db.rowsOf (sanitize_name ename) i).filter
              (fun r => decide (r.block_number < (N : Int)))) ∧
        alGet db2.event_block (sanitize_name ename) =
          some ((N : Int) - 1, fin)) := by
  constructor
  · intro events db ename
    rfl
  · intro events db ename N prepared k ix fin hreg hstmts hk hN heb hwf hhi hlo
    have hN63 : N < 2 ^ 63 := by
      rcases hhi with ⟨i, r, _, hmem, hge⟩
      have := hwf i r hmem
      omega
    have hi64 : i64OfNat N = some (N : Int) := by
      unfold i64OfNat
      rw [if_pos hN63]
    have hstep : remove events db [⟨ename, N⟩] =
        .ok ((List.range k).foldl
          (removeStep (sanitize_name ename) (N : Int) ((N : Int) - 1)) db) := by
      unfold remove removeUncle
      simp only
      rw [if_neg (show ¬ (N = 0) by omega), hi64]
      simp only
      rw [hreg]
      simp only
      rw [hstmts]
      rfl
    refine ⟨_, hstep, ?_, ?_⟩
    · intro i hik
      rw [removeFold_rowsOf, if_pos (List.mem_range.mpr hik)]
      refine List.filter_congr ?_
      intro r _
      rw [← decide_not]
      exact decide_eq_decide.mpr (by omega)
    · rw [removeFold_eventBlock _ _ _ _ _
        (by simpa [List.range_eq_nil] using Nat.pos_iff_ne_zero.mp hk), heb]
      rfl

/-- A data row at a given block number (other columns fixed). -/
def rowAt (b : Int) : Row := ⟨b, 0, 0, List.replicate 20 4, none, []⟩

/-- The spec's removal scenario: rows at blocks 1, 2, 5, 6; cursor
(6, 3). -/
def dbRows : Db :=
  ⟨[("ev", (6, 3))], [(("ev", 0), [rowAt 1, rowAt 2, rowAt 5, rowAt 6])]⟩

theorem C5_uncle_removal_witness :
    remove regEmpty dbRows [⟨"ev", 0⟩] = .error .block0Uncled ∧
      ∃ db2, remove regEmpty dbRows [⟨"ev", 6⟩] = .ok db2 ∧
        db2.rowsOf "ev" 0 = [rowAt 1, rowAt 2, rowAt 5] ∧
        alGet db2.event_block "ev" = some (5, 3) := by
  constructor
  · exact C5_uncle_removal.1 regEmpty dbRows "ev"
  · have hwf : ∀ i r, r ∈ dbRows.rowsOf (sanitize_name "ev") i →
        r.block_number < 2 ^ 63 := by
      intro i r hr
      by_cases h0 : i = 0
      · subst h0
        have he : dbRows.rowsOf (sanitize_name "ev") 0 =
            [rowAt 1, rowAt 2, rowAt 5, rowAt 6] := by decide
        rw [he] at hr
        simp only [List.mem_cons, List.not_mem_nil, or_false] at hr
        rcases hr with rfl | rfl | rfl | rfl <;> decide
      · have he : dbRows.rowsOf (sanitize_name "ev") i = [] := by
          unfold dbRows Db.rowsOf
          rw [List.find?_cons_of_neg _ (by
            simp only [decide_eq_true_eq, Prod.mk.injEq]
            intro hc
            exact h0 hc.2.symm)]
          rfl
        rw [he] at hr
        exact absurd hr (List.not_mem_nil r)
    obtain ⟨db2, h1, h2, h3⟩ := C5_uncle_removal.2 regEmpty dbRows "ev" 6
      peEmpty 1 6 3 (by decide) (by decide) (by decide) (by decide)
      (by decide) hwf
      ⟨0, rowAt 6, by decide, by decide, by decide⟩
      ⟨0, rowAt 1, by decide, by decide, by decide⟩
    exact ⟨db2, h1, (h2 0 (by decide)).trans (by decide), h3⟩

theorem C10_sanitized_addressing_witness :
    sanitize_name "a b" = sanitize_name "a-b" ∧
      event_block dbEmpty "a b" = event_block dbEmpty "a-b" ∧
      store_event regEmpty dbEmpty ⟨"a b", 1, 0, 0, List.replicate 20 4, []⟩ =
        store_event regEmpty dbEmpty
          ⟨"a-b", 1, 0, 0, List.replicate 20 4, []⟩ := by
  have h := C10_sanitized_addressing.1 "a b" "a-b" (by decide) regEmpty dbEmpty
    edEmpty 1 0 0 (List.replicate 20 4) [] ⟨0, 0⟩ 1
  exact ⟨by decide, h.2.1, h.2.2.1⟩
